import Mathlib

/-!
Formal model (shallow embedding) of
deephyper/search/models/parameters/discreteparameter.py.

Numbers are modelled by Int with exact arithmetic: Python integers are
exact, and every quantity the module manipulates in the scenarios of the
specification stays far below any float-precision boundary, so the float
casts inside max_n are value-preserving on the modelled inputs; the
round-off correction branches of max_n are nevertheless retained
verbatim.  A raised Python exception is modelled by Except PyError; the
while loop of interval_list is modelled with an explicit fuel bound that
dominates every terminating run of the loop, so a none result models a
run that never finishes.
-/

namespace Deephyper

/-- Model of the closed enumeration StepType. -/
inductive StepType
  | ARITHMETIC
  | GEOMETRIC
  deriving DecidableEq

/-- Model of the closed enumeration ParameterType (members used here). -/
inductive ParameterType
  | DISCRETE
  | CONTINUOUS
  | CATEGORICAL
  deriving DecidableEq

/-- Model of the closed enumeration DiscreteRepresentationType. -/
inductive DiscreteRepresentationType
  | DEFAULT
  deriving DecidableEq

/-- The class of a raised Python exception, for the classes this module
can raise or that the specification mentions. -/
inductive ExcKind
  | Warning
  | AttributeError
  | NameError
  | ZeroDivisionError
  | OverflowError
  | ValidationError
  deriving DecidableEq

/-- A raised Python exception: its class and its message. -/
structure PyError where
  kind : ExcKind
  msg : String
  deriving DecidableEq

/-- Model of a DiscreteParameter instance right after its constructor
ran: the record holds exactly the attributes the constructor assigns on
self (the base constructor additionally stores the name and the fixed
type tag DISCRETE, see ptype below). -/
structure DiscreteParameter where
  name : String
  low : Int
  high : Int
  step_type : StepType
  step_size : Int
  repr_type : DiscreteRepresentationType
  is_negative : Bool
  deriving DecidableEq

/-- The type tag the constructor passes to the base class: always
ParameterType.DISCRETE. -/
def DiscreteParameter.ptype (_ : DiscreteParameter) : ParameterType :=
  ParameterType.DISCRETE

/-- Name of the only Bool-valued attribute the constructor assigns. -/
def attrAssigned : String := "is_negative"

/-- Name of the attribute map_to_interval reads for the sign flip. -/
def attrRead : String := "is_neg"

/-- Modelled from the spec: attribute lookup on a DiscreteParameter
instance, restricted to Bool-valued attributes.  The module of the base
class Parameter is not among the sources; per the specification its
constructor stores only the name and the type tag, so the set of
Bool-valued attributes of an instance is exactly the singleton assigned
by the DiscreteParameter constructor, namely is_negative.  In
particular, looking up the name is_neg fails. -/
def getBoolAttr (p : DiscreteParameter) (attr : String) : Option Bool :=
  if attr = attrAssigned then some p.is_negative else none

/-- The AttributeError raised when self.is_neg is dereferenced. -/
def isNegAttrError : PyError :=
  ⟨ExcKind.AttributeError, "DiscreteParameter object has no attribute is_neg"⟩

/-- Model of DiscreteParameter.map_to_interval: the closed form value
low + step_size * n, or low * step_size ^ n, is computed first, then the
sign flip dereferences self.is_neg, an attribute the constructor never
assigns (it assigns is_negative), so the lookup raises AttributeError. -/
def DiscreteParameter.map_to_interval (p : DiscreteParameter) (n : Nat) :
    Except PyError Int :=
  let abs_val : Int :=
    match p.step_type with
    | StepType.ARITHMETIC => p.low + p.step_size * (n : Int)
    | StepType.GEOMETRIC => p.low * p.step_size ^ n
  match getBoolAttr p attrRead with
  | some b => if b then Except.ok (-abs_val) else Except.ok abs_val
  | none => Except.error isNegAttrError

/-- Sign application inside the loop body of interval_list. -/
def signedVal (is_neg : Bool) (v : Int) : Int :=
  if is_neg then -v else v

/-- One step of the loop of interval_list: value_cur += step_size for
ARITHMETIC, value_cur *= step_size for GEOMETRIC. -/
def stepNext (step_type : StepType) (step_size value_cur : Int) : Int :=
  match step_type with
  | StepType.ARITHMETIC => value_cur + step_size
  | StepType.GEOMETRIC => value_cur * step_size

/-- The while loop of interval_list with an explicit fuel bound; the
accumulator collects the appended values in reverse.  A none result
models a run that did not leave the loop within fuel iterations. -/
def intervalLoop (high : Int) (is_neg : Bool) (step_type : StepType)
    (step_size : Int) : Nat → Int → List Int → Option (List Int)
  | 0, value_cur, values =>
    if value_cur ≤ high then none else some values.reverse
  | fuel + 1, value_cur, values =>
    if value_cur ≤ high then
      intervalLoop high is_neg step_type step_size fuel
        (stepNext step_type step_size value_cur)
        (signedVal is_neg value_cur :: values)
    else some values.reverse

/-- Fuel bound used to run the loop of interval_list: one more than the
width of the interval.  Every terminating run of the source loop takes
at most this many iterations, because on a terminating run each
iteration moves value_cur from at most high to strictly above high or
increases it by at least 1 (see the loop lemmas below), so fuel
exhaustion models genuine nontermination. -/
def defaultFuel (low high : Int) : Nat :=
  (high - low).toNat + 1

/-- Model of DiscreteParameter.interval_list: run the while loop from
value_cur = low with an empty accumulator. -/
def DiscreteParameter.interval_list (p : DiscreteParameter) :
    Option (List Int) :=
  intervalLoop p.high p.is_negative p.step_type p.step_size
    (defaultFuel p.low p.high) p.low []

/-- The NameError raised by the GEOMETRIC branch of max_n, which reads
the local variable lower_bound that is bound nowhere in the function
(only low, high and step_size are bound) and is no module global. -/
def nameErrorLowerBound : PyError :=
  ⟨ExcKind.NameError, "name lower_bound is not defined"⟩

/-- The ZeroDivisionError raised by a float division by zero. -/
def zeroDivError : PyError :=
  ⟨ExcKind.ZeroDivisionError, "float division by zero"⟩

/-- The OverflowError raised by float(z) on an integer outside the
double range. -/
def overflowCastError : PyError :=
  ⟨ExcKind.OverflowError, "int too large to convert to float"⟩

/-- The OverflowError raised when math.floor receives an infinite
value. -/
def overflowFloorError : PyError :=
  ⟨ExcKind.OverflowError, "cannot convert float infinity to integer"⟩

/-- Fuel-bounded binary length of a natural number.  The fuel only
bounds the recursion depth, and the recursion halves its argument each
step, so a fuel of 4096 is exact for every number below 2 ^ 4096 - far
beyond the overflow threshold 2 ^ 1024 of a double, and the overflow
checks below fire for everything coarser. -/
def bitLenFuel : Nat → Nat → Nat
  | 0, _ => 0
  | fuel + 1, n => if n = 0 then 0 else bitLenFuel fuel (n / 2) + 1

/-- Binary length of a natural number (0 for 0). -/
def bitLen (n : Nat) : Nat := bitLenFuel 4096 n

/-- Round the fraction N / D (D positive) to the nearest integer, ties
to even: the rounding rule of IEEE-754 binary arithmetic. -/
def roundHalfEven (N D : Nat) : Nat :=
  if 2 * (N % D) < D then N / D
  else if D < 2 * (N % D) then N / D + 1
  else if (N / D) % 2 = 0 then N / D else N / D + 1

/-- The binade exponent of the positive fraction a / b: the unique e
with 2 ^ e <= a / b < 2 ^ (e + 1) (exact for a and b below 2 ^ 4096). -/
def fracExp (a b : Nat) : Int :=
  if b * 2 ^ bitLen a ≤ a * 2 ^ bitLen b then (bitLen a : Int) - bitLen b
  else (bitLen a : Int) - bitLen b - 1

/-- A Python float modelled exactly: a dyadic rational written as a
signed numerator over a power-of-two denominator.  IEEE-754 doubles
are dyadic rationals, and every operation below rounds its exact
result to 53 significant bits, round to nearest, ties to even, exactly
as the hardware does throughout the normal range.  Exponent saturation
to an infinity at magnitude 2 ^ 1024 is rendered by the explicit
overflow checks at the three places where Python raises OverflowError;
gradual underflow below 2 ^ (-1022) is modelled at full 53-bit
precision (no quantity in this module is both that small and able to
change an observable result). -/
structure PyFloat where
  num : Int
  den : Nat
  deriving DecidableEq

/-- The rational value of a modelled float. -/
def PyFloat.toQ (x : PyFloat) : ℚ := (x.num : ℚ) / (x.den : ℚ)

/-- Round the positive fraction a / b to 53 significant bits, round to
nearest, ties to even: compute the binade exponent e of a / b, scale
into [2 ^ 52, 2 ^ 53), round half to even, and reattach the scale
2 ^ (e - 52) (the scale multiplies the numerator when e is at least
52 and divides it through the denominator otherwise). -/
def flRoundPos (a b : Nat) : PyFloat :=
  if 0 ≤ 52 - fracExp a b then
    if 0 ≤ fracExp a b - 52 then
      ⟨(roundHalfEven (a * 2 ^ (52 - fracExp a b).toNat) b : Nat)
          * 2 ^ (fracExp a b - 52).toNat, 1⟩
    else
      ⟨(roundHalfEven (a * 2 ^ (52 - fracExp a b).toNat) b : Nat),
        2 ^ (52 - fracExp a b).toNat⟩
  else
    ⟨(roundHalfEven a (b * 2 ^ (fracExp a b - 52).toNat) : Nat)
        * 2 ^ (fracExp a b - 52).toNat, 1⟩

/-- Round the value given by a sign and a positive fraction. -/
def flRound (sgn : Bool) (a b : Nat) : PyFloat :=
  if a = 0 then ⟨0, 1⟩
  else if sgn then ⟨-(flRoundPos a b).num, (flRoundPos a b).den⟩
  else flRoundPos a b

/-- Round a signed exact fraction with positive denominator. -/
def flRoundFrac (n : Int) (d : Nat) : PyFloat :=
  flRound (decide (n < 0)) n.natAbs d

/-- Model of the Python conversion float(z) of an integer z, before
the overflow check. -/
def pyFloat (z : Int) : PyFloat := flRoundFrac z 1

/-- Float subtraction: the exact difference, rounded. -/
def fsub (x y : PyFloat) : PyFloat :=
  flRoundFrac (x.num * y.den - y.num * x.den) (x.den * y.den)

/-- Float addition: the exact sum, rounded. -/
def fadd (x y : PyFloat) : PyFloat :=
  flRoundFrac (x.num * y.den + y.num * x.den) (x.den * y.den)

/-- Float multiplication: the exact product, rounded. -/
def fmul (x y : PyFloat) : PyFloat :=
  flRoundFrac (x.num * y.num) (x.den * y.den)

/-- Float division: the exact quotient, rounded (the divisor is
nonzero at the call site, guarded by the ZeroDivisionError check). -/
def fdivF (x y : PyFloat) : PyFloat :=
  flRoundFrac (if y.num < 0 then -(x.num * y.den) else x.num * y.den)
    (x.den * y.num.natAbs)

/-- Model of math.floor on a float value. -/
def ffloor (x : PyFloat) : Int := Int.fdiv x.num x.den

/-- Comparison of two float values (exact, as in hardware). -/
def fle (x y : PyFloat) : Bool :=
  decide (x.num * (y.den : Int) ≤ y.num * (x.den : Int))

/-- Whether the magnitude of a float value is below 2 ^ k: the test
for a value having left the double range. -/
def fAbsLt (x : PyFloat) (k : Nat) : Bool :=
  decide (x.num.natAbs < 2 ^ k * x.den)

/-- Model of DiscreteParameter.max_n.  The source first casts low,
high and step_size to double precision with float(); each cast raises
OverflowError when the integer exceeds the double range.  The
ARITHMETIC branch computes floor((high - low) / step_size) with float
subtraction and float division, each correctly rounded to 53 bits,
raising ZeroDivisionError on a zero divisor and OverflowError when the
value reaching math.floor is infinite; it then applies the round-off
correction of the source in float arithmetic, where the int n is first
converted to float (raising OverflowError outside the double range).
The GEOMETRIC branch dereferences the unbound name lower_bound before
its arithmetic, so once the casts succeed it raises NameError. -/
def DiscreteParameter.max_n (p : DiscreteParameter) : Except PyError Int :=
  let low := pyFloat p.low
  if fAbsLt low 1024 then
    let high := pyFloat p.high
    if fAbsLt high 1024 then
      let step_size := pyFloat p.step_size
      if fAbsLt step_size 1024 then
        match p.step_type with
        | StepType.ARITHMETIC =>
          if step_size.num = 0 then Except.error zeroDivError
          else
            let d := fsub high low
            if fAbsLt d 1024 then
              let q := fdivF d step_size
              if fAbsLt q 1024 then
                let n : Int := ffloor q
                let nf := pyFloat n
                if fAbsLt nf 1024 then
                  if fle (fadd (fmul nf step_size) low) (fsub high step_size)
                  then Except.ok (n + 1)
                  else Except.ok n
                else Except.error overflowCastError
              else Except.error overflowFloorError
            else Except.error overflowFloorError
        | StepType.GEOMETRIC => Except.error nameErrorLowerBound
      else Except.error overflowCastError
    else Except.error overflowCastError
  else Except.error overflowCastError

/-- Message of the base validation for an ill-formed name. -/
def msgEmptyName : String := "Parameter constructed with empty name."

/-- Message for a negative lower bound. -/
def msgNegativeLow : String :=
  "Discrete parameter constructed with negative lower bound. Please make use of the is_negative constructor argument."

/-- Message for inverted or degenerate bounds. -/
def msgInvertedBounds : String :=
  "Parameter lower bound exceeds or is equal to its upper bound."

/-- Message for a nonpositive step size. -/
def msgStepSize : String :=
  "Parameter constructed with step size less than or equal to 0."

/-- Message for a geometric step size of at most 1. -/
def msgGeomStep : String :=
  "Parameter has geometric step type and step size less than or equal to 1."

/-- Message for a geometric bound equal to 0. -/
def msgGeomZero : String :=
  "Parameter has geometric step type and a bound of 0 on its interval."

/-- Message for geometric bounds of different sign. -/
def msgGeomSign : String :=
  "Parameter has geometric step type and its bounds have different sign."

/-- Modelled from the spec: debug of the base class Parameter, whose
module is not among the sources.  Per the specification it validates
that the stored name and type tag are well-formed; the type tag of a
DiscreteParameter is always DISCRETE, so only the name check can fire,
and the source signals validation failures by raising Warning. -/
def baseDebug (name : String) : Except PyError Unit :=
  if name = "" then Except.error ⟨ExcKind.Warning, msgEmptyName⟩
  else Except.ok ()

/-- Model of DiscreteParameter.debug, the checks in source order.  The
two isinstance checks on step_type and repr_type always pass in the
model because the enumerations are closed types.  Every violated
invariant raises the builtin exception class Warning; the formatted
rendering of the parameter appended to each source message is elided
from the modelled message text. -/
def DiscreteParameter.debug (p : DiscreteParameter) : Except PyError Unit :=
  match baseDebug p.name with
  | Except.error e => Except.error e
  | Except.ok _ =>
    if p.low < 0 then Except.error ⟨ExcKind.Warning, msgNegativeLow⟩
    else if p.high ≤ p.low then Except.error ⟨ExcKind.Warning, msgInvertedBounds⟩
    else if p.step_size ≤ 0 then Except.error ⟨ExcKind.Warning, msgStepSize⟩
    else if p.step_type = StepType.GEOMETRIC ∧ p.step_size ≤ 1 then
      Except.error ⟨ExcKind.Warning, msgGeomStep⟩
    else if p.step_type = StepType.GEOMETRIC ∧ (p.low = 0 ∨ p.high = 0) then
      Except.error ⟨ExcKind.Warning, msgGeomZero⟩
    else if p.step_type = StepType.GEOMETRIC ∧
        ((p.low < 0 ∧ 0 < p.high) ∨ (0 < p.low ∧ p.high < 0)) then
      Except.error ⟨ExcKind.Warning, msgGeomSign⟩
    else Except.ok ()

/-- The class of the exception a computation raised, if it raised one. -/
def errKind {α : Type} : Except PyError α → Option ExcKind
  | Except.error e => some e.kind
  | Except.ok _ => none

/-- Rebuild a parameter with the given is_negative flag, all other
attributes unchanged (the two constructions the sign-flip property
compares). -/
def setNeg (p : DiscreteParameter) (b : Bool) : DiscreteParameter :=
  ⟨p.name, p.low, p.high, p.step_type, p.step_size, p.repr_type, b⟩

/-- Number of loop iterations interval_list performs for an ARITHMETIC
parameter entered at value_cur (0 when the loop body is never run). -/
def arithCount (high step_size value_cur : Int) : Nat :=
  if value_cur ≤ high then (high - value_cur).toNat / step_size.toNat + 1
  else 0

/-- The scenario parameter with name batch, low 1, high 128, GEOMETRIC
stepping with step size 2, default representation, not negative. -/
def batchParam : DiscreteParameter :=
  ⟨r"batch", 1, 128, StepType.GEOMETRIC, 2, DiscreteRepresentationType.DEFAULT, false⟩

/-- The scenario parameter with name units, low 32, high 512,
ARITHMETIC stepping with step size 32. -/
def unitsParam : DiscreteParameter :=
  ⟨r"units", 32, 512, StepType.ARITHMETIC, 32, DiscreteRepresentationType.DEFAULT, false⟩

/-- Invalid configuration: negative lower bound, defaults otherwise. -/
def cfg61 : DiscreteParameter :=
  ⟨r"c1", -1, 10, StepType.ARITHMETIC, 1, DiscreteRepresentationType.DEFAULT, false⟩

/-- Invalid configuration: inverted bounds. -/
def cfg62 : DiscreteParameter :=
  ⟨r"c2", 5, 3, StepType.ARITHMETIC, 1, DiscreteRepresentationType.DEFAULT, false⟩

/-- Invalid configuration: zero step size. -/
def cfg63 : DiscreteParameter :=
  ⟨r"c3", 1, 10, StepType.ARITHMETIC, 0, DiscreteRepresentationType.DEFAULT, false⟩

/-- Invalid configuration: geometric with step size 1. -/
def cfg64 : DiscreteParameter :=
  ⟨r"c4", 1, 8, StepType.GEOMETRIC, 1, DiscreteRepresentationType.DEFAULT, false⟩

/-- Invalid configuration: geometric with bounds of different sign. -/
def cfg65 : DiscreteParameter :=
  ⟨r"c5", -4, 8, StepType.GEOMETRIC, 2, DiscreteRepresentationType.DEFAULT, false⟩

/-- Invalid configuration: geometric with a zero bound. -/
def cfg66 : DiscreteParameter :=
  ⟨r"c6", 0, 8, StepType.GEOMETRIC, 2, DiscreteRepresentationType.DEFAULT, false⟩

/-- A small valid ARITHMETIC parameter with the sign flag set, used as
a concrete instance for the universally quantified properties. -/
def w5Param : DiscreteParameter :=
  ⟨r"w5", 0, 10, StepType.ARITHMETIC, 3, DiscreteRepresentationType.DEFAULT, true⟩

/-- The parameter exhibiting the double-precision rounding inside
max_n: low 0, high 2 ^ 53 + 1, ARITHMETIC stepping with step size 1.
It satisfies every invariant of debug, but float(2 ^ 53 + 1) rounds to
2 ^ 53, so max_n undercounts the interval by one. -/
def cexParam : DiscreteParameter :=
  ⟨r"cex", 0, 2 ^ 53 + 1, StepType.ARITHMETIC, 1,
    DiscreteRepresentationType.DEFAULT, false⟩

deriving instance DecidableEq for Except

/-- Unpacking the invariants that a run of debug ending in ok
establishes: nonnegative lower bound, ordered bounds, positive step
size, and for GEOMETRIC a step size of at least 2 and a positive lower
bound. -/
theorem debug_ok_bounds (p : DiscreteParameter) (h : p.debug = Except.ok ()) :
    0 ≤ p.low ∧ p.low < p.high ∧ 1 ≤ p.step_size ∧
      (p.step_type = StepType.GEOMETRIC → 2 ≤ p.step_size ∧ 1 ≤ p.low) := by
  unfold DiscreteParameter.debug at h
  cases hb : baseDebug p.name with
  | error e => rw [hb] at h; simp at h
  | ok u =>
    rw [hb] at h
    dsimp only at h
    split_ifs at h with h1 h2 h3 h4 h5 h6
    refine ⟨by omega, by omega, by omega, fun hg => ?_⟩
    simp only [hg, true_and] at h4 h5
    push_neg at h5
    exact ⟨by omega, by omega⟩

/-- The loop exits at once, whatever the fuel, when the current value
is already above the bound. -/
theorem intervalLoop_exit (high : Int) (is_neg : Bool) (st : StepType)
    (ss : Int) (fuel : Nat) (cur : Int) (vs : List Int) (h : high < cur) :
    intervalLoop high is_neg st ss fuel cur vs = some vs.reverse := by
  cases fuel <;> simp [intervalLoop, not_le.mpr h]

/-- Recurrence of the iteration count of the ARITHMETIC loop. -/
theorem arithCount_succ (high ss cur : Int) (hss : 1 ≤ ss) (hc : cur ≤ high) :
    arithCount high ss cur = arithCount high ss (cur + ss) + 1 := by
  unfold arithCount
  by_cases h2 : cur + ss ≤ high
  · rw [if_pos hc, if_pos h2]
    have h3 : (high - cur).toNat = (high - (cur + ss)).toNat + ss.toNat := by
      omega
    rw [h3, Nat.add_div_right _ (by omega : 0 < ss.toNat)]
  · rw [if_pos hc, if_neg h2]
    have hlt : (high - cur).toNat < ss.toNat := by omega
    rw [Nat.div_eq_of_lt hlt]

/-- Closed form of the ARITHMETIC loop: with enough fuel it returns the
accumulator followed by the arithmetic progression of signed values. -/
theorem intervalLoop_arith (high ss : Int) (is_neg : Bool) (hss : 1 ≤ ss) :
    ∀ (fuel : Nat) (cur : Int) (vs : List Int), high - cur < (fuel : Int) →
      intervalLoop high is_neg StepType.ARITHMETIC ss fuel cur vs =
        some (vs.reverse ++ (List.range (arithCount high ss cur)).map
          (fun (i : Nat) => signedVal is_neg (cur + ss * (i : Int)))) := by
  intro fuel
  induction fuel with
  | zero =>
    intro cur vs hf
    have hgt : high < cur := by push_cast at hf; omega
    rw [intervalLoop, if_neg (not_le.mpr hgt)]
    rw [arithCount, if_neg (not_le.mpr hgt)]
    simp
  | succ fuel ih =>
    intro cur vs hf
    by_cases hc : cur ≤ high
    · rw [intervalLoop, if_pos hc]
      have hfuel : high - stepNext StepType.ARITHMETIC ss cur < (fuel : Int) := by
        simp only [stepNext]
        push_cast at hf ⊢
        omega
      rw [ih _ _ hfuel]
      rw [arithCount_succ high ss cur hss hc, List.range_succ_eq_map,
        List.map_cons, List.map_map]
      simp only [stepNext, List.reverse_cons, List.append_assoc,
        List.cons_append, List.nil_append, List.singleton_append]
      congr 2
      congr 1
      · congr 1
        push_cast
        ring
      · apply List.map_congr_left
        intro i _
        simp only [Function.comp_apply]
        congr 1
        push_cast
        ring
    · rw [intervalLoop, if_neg hc]
      rw [arithCount, if_neg hc]
      simp

/-- The width-plus-one fuel bound used by interval_list. -/
theorem defaultFuel_bound (low high : Int) :
    high - low < (defaultFuel low high : Int) := by
  unfold defaultFuel
  push_cast
  omega

/-- Closed form of interval_list for an ARITHMETIC parameter with a
positive step size. -/
theorem interval_list_arith (p : DiscreteParameter)
    (ht : p.step_type = StepType.ARITHMETIC) (hss : 1 ≤ p.step_size) :
    p.interval_list =
      some ((List.range (arithCount p.high p.step_size p.low)).map
        (fun (i : Nat) =>
          signedVal p.is_negative (p.low + p.step_size * (i : Int)))) := by
  unfold DiscreteParameter.interval_list
  rw [ht]
  rw [intervalLoop_arith p.high p.step_size p.is_negative hss _ _ _
    (defaultFuel_bound p.low p.high)]
  simp

/-- Correctness of the fuel-bounded binary length: below 2 ^ fuel the
computed length brackets its argument between consecutive powers of
two. -/
theorem bitLenFuel_spec :
    ∀ (fuel n : Nat), n < 2 ^ fuel → 1 ≤ n →
      2 ^ (bitLenFuel fuel n - 1) ≤ n ∧ n < 2 ^ bitLenFuel fuel n := by
  intro fuel
  induction fuel with
  | zero =>
    intro n h h1
    simp at h
    omega
  | succ fuel ih =>
    intro n h h1
    rw [bitLenFuel, if_neg (by omega : ¬ n = 0)]
    by_cases h2 : n = 1
    · subst h2
      have h0 : bitLenFuel fuel 0 = 0 := by cases fuel <;> rfl
      norm_num [h0]
    · have hp : 2 ^ (fuel + 1) = 2 * 2 ^ fuel := by ring
      obtain ⟨ihl, ihr⟩ := ih (n / 2) (by omega) (by omega)
      have hL1 : 1 ≤ bitLenFuel fuel (n / 2) := by
        by_contra hc
        push_neg at hc
        have h0 : bitLenFuel fuel (n / 2) = 0 := by omega
        rw [h0] at ihr
        simp at ihr
        omega
      set L := bitLenFuel fuel (n / 2) with hLdef
      have e1 : 2 ^ L = 2 * 2 ^ (L - 1) := by
        conv_lhs => rw [show L = (L - 1) + 1 by omega]
        rw [pow_succ']
      have e2 : 2 ^ (L + 1) = 2 * 2 ^ L := by ring
      have hgoal : L + 1 - 1 = L := by omega
      rw [hgoal]
      omega

/-- Binary length bracket: used everywhere below 2 ^ 4096. -/
theorem bitLen_spec (n : Nat) (h4 : n < 2 ^ 4096) (h1 : 1 ≤ n) :
    2 ^ (bitLen n - 1) ≤ n ∧ n < 2 ^ bitLen n :=
  bitLenFuel_spec 4096 n h4 h1

/-- A positive number has a positive binary length. -/
theorem bitLen_pos (n : Nat) (h4 : n < 2 ^ 4096) (h1 : 1 ≤ n) :
    1 ≤ bitLen n := by
  obtain ⟨-, hr⟩ := bitLen_spec n h4 h1
  by_contra hc
  push_neg at hc
  have h0 : bitLen n = 0 := by omega
  rw [h0] at hr
  simp at hr
  omega

/-- Rounding an exact multiple returns the quotient. -/
theorem roundHalfEven_exact (N D : Nat) (hD : 1 ≤ D) (hdvd : D ∣ N) :
    roundHalfEven N D = N / D := by
  unfold roundHalfEven
  have hr : N % D = 0 := Nat.mod_eq_zero_of_dvd hdvd
  rw [hr, if_pos (by omega : 2 * 0 < D)]

/-- The rounded integer is at most one above the integer quotient. -/
theorem roundHalfEven_le (N D : Nat) : roundHalfEven N D ≤ N / D + 1 := by
  unfold roundHalfEven
  split_ifs <;> omega

/-- Round half to even errs by at most one half. -/
theorem roundHalfEven_err (N D : Nat) (hD : 1 ≤ D) :
    |((roundHalfEven N D : Nat) : ℚ) - (N : ℚ) / (D : ℚ)| ≤ 1 / 2 := by
  have hDq : (0:ℚ) < (D:ℚ) := by exact_mod_cast hD
  have key : ∀ m : ℕ, 2 * ((m : ℤ) * D) - 2 * N ≤ D →
      2 * (N : ℤ) - 2 * ((m : ℤ) * D) ≤ D →
      |((m : ℕ) : ℚ) - (N : ℚ) / (D : ℚ)| ≤ 1 / 2 := by
    intro m h1 h2
    have hform : ((m : ℕ) : ℚ) - (N : ℚ) / (D : ℚ)
        = (((m : ℤ) * D - N : ℤ) : ℚ) / (D : ℚ) := by
      field_simp
    have hc1 : (((m : ℤ) * D - N : ℤ) : ℚ) * 2 ≤ (D : ℚ) := by
      have h1q : ((2 * ((m : ℤ) * D) - 2 * N : ℤ) : ℚ) ≤ ((D : ℤ) : ℚ) := by
        exact_mod_cast h1
      push_cast at h1q ⊢
      linarith
    have hc2 : -(D : ℚ) ≤ (((m : ℤ) * D - N : ℤ) : ℚ) * 2 := by
      have h2q : ((2 * (N : ℤ) - 2 * ((m : ℤ) * D) : ℤ) : ℚ) ≤ ((D : ℤ) : ℚ) := by
        exact_mod_cast h2
      push_cast at h2q ⊢
      linarith
    rw [hform, abs_div, abs_of_pos hDq,
      div_le_div_iff hDq (by norm_num : (0:ℚ) < 2), one_mul]
    calc |(((m : ℤ) * D - N : ℤ) : ℚ)| * 2
        = |(((m : ℤ) * D - N : ℤ) : ℚ) * 2| := by
          rw [abs_mul]
          norm_num
      _ ≤ (D : ℚ) := abs_le.mpr ⟨hc2, hc1⟩
  have hlt : N % D < D := Nat.mod_lt _ (by omega)
  have hcast : ((N / D : ℕ) : ℤ) * (D : ℤ) + ((N % D : ℕ) : ℤ) = (N : ℤ) := by
    exact_mod_cast Nat.div_add_mod' N D
  have hcast2 : ((N / D + 1 : ℕ) : ℤ) * (D : ℤ)
      = ((N / D : ℕ) : ℤ) * (D : ℤ) + (D : ℤ) := by
    push_cast
    ring
  unfold roundHalfEven
  split_ifs with h1 h2 h3
  · exact key _ (by omega) (by omega)
  · exact key _ (by omega) (by omega)
  · exact key _ (by omega) (by omega)
  · exact key _ (by omega) (by omega)

/-- Two-power with an integer exponent written as a quotient of
natural two-powers. -/
theorem zpow_sub_natCast (x y : ℕ) :
    (2:ℚ) ^ ((x:ℤ) - (y:ℤ)) = ((2 ^ x : ℕ) : ℚ) / ((2 ^ y : ℕ) : ℚ) := by
  rw [zpow_sub₀ (by norm_num : (2:ℚ) ≠ 0), zpow_natCast, zpow_natCast]
  push_cast
  ring

/-- The binade exponent brackets its fraction between consecutive
powers of two. -/
theorem fracExp_bracket (a b : Nat) (ha : 1 ≤ a) (hb : 1 ≤ b)
    (ha4 : a < 2 ^ 4096) (hb4 : b < 2 ^ 4096) :
    (2:ℚ) ^ fracExp a b ≤ (a:ℚ) / (b:ℚ) ∧
      (a:ℚ) / (b:ℚ) < (2:ℚ) ^ (fracExp a b + 1) := by
  obtain ⟨hal, har⟩ := bitLen_spec a ha4 ha
  obtain ⟨hbl, hbr⟩ := bitLen_spec b hb4 hb
  have hLa1 : 1 ≤ bitLen a := bitLen_pos a ha4 ha
  have hLb1 : 1 ≤ bitLen b := bitLen_pos b hb4 hb
  have hbq : (0:ℚ) < (b:ℚ) := by exact_mod_cast hb
  have hpq : ∀ k : ℕ, (0:ℚ) < ((2 ^ k : ℕ) : ℚ) := by
    intro k
    exact_mod_cast Nat.pos_pow_of_pos k (by norm_num)
  unfold fracExp
  split_ifs with htest
  · constructor
    · rw [zpow_sub_natCast, div_le_div_iff (hpq _) hbq]
      have key : 2 ^ bitLen a * b ≤ a * 2 ^ bitLen b := by
        rw [Nat.mul_comm]
        exact htest
      exact_mod_cast key
    · have hexp : (bitLen a : ℤ) - bitLen b + 1
          = ((bitLen a + 1 : ℕ) : ℤ) - (bitLen b : ℤ) := by push_cast; ring
      rw [hexp, zpow_sub_natCast, div_lt_div_iff hbq (hpq _)]
      have key : a * 2 ^ bitLen b < 2 ^ (bitLen a + 1) * b := by
        calc a * 2 ^ bitLen b < 2 ^ bitLen a * 2 ^ bitLen b :=
              (Nat.mul_lt_mul_right (by positivity)).mpr har
          _ = 2 ^ (bitLen a + 1) * 2 ^ (bitLen b - 1) := by
              rw [← pow_add, ← pow_add]
              congr 1
              omega
          _ ≤ 2 ^ (bitLen a + 1) * b := Nat.mul_le_mul_left _ hbl
      exact_mod_cast key
  · have hlt : a * 2 ^ bitLen b < b * 2 ^ bitLen a := by omega
    constructor
    · have hexp : (bitLen a : ℤ) - bitLen b - 1
          = ((bitLen a - 1 : ℕ) : ℤ) - (bitLen b : ℤ) := by
        push_cast [hLa1]
        ring
      rw [hexp, zpow_sub_natCast, div_le_div_iff (hpq _) hbq]
      have key : 2 ^ (bitLen a - 1) * b ≤ a * 2 ^ bitLen b := by
        calc 2 ^ (bitLen a - 1) * b ≤ 2 ^ (bitLen a - 1) * 2 ^ bitLen b :=
              Nat.mul_le_mul_left _ (le_of_lt hbr)
          _ = 2 ^ (bitLen a - 1 + bitLen b) := by rw [← pow_add]
          _ ≤ a * 2 ^ bitLen b := by
              rw [pow_add]
              exact Nat.mul_le_mul_right _ hal
      exact_mod_cast key
    · have hexp : (bitLen a : ℤ) - bitLen b - 1 + 1
          = (bitLen a : ℤ) - (bitLen b : ℤ) := by ring
      rw [hexp, zpow_sub_natCast, div_lt_div_iff hbq (hpq _)]
      have key : a * 2 ^ bitLen b < 2 ^ bitLen a * b := by
        rw [Nat.mul_comm (2 ^ bitLen a) b]
        exact hlt
      exact_mod_cast key

/-- Natural two-power equals the integer-exponent two-power of its
nonnegative truncation. -/
theorem two_pow_toNat {t : ℤ} (h : 0 ≤ t) :
    (2:ℚ) ^ t.toNat = (2:ℚ) ^ t := by
  rw [← zpow_natCast, Int.toNat_of_nonneg h]

/-- Reduction of the signed rounding to the positive core. -/
theorem flRound_false (a b : Nat) (ha : ¬ a = 0) :
    flRound false a b = flRoundPos a b := by
  rw [flRound, if_neg ha]
  rfl

/-- The negative-sign rounding negates the numerator of the positive
one and keeps its denominator. -/
theorem flRound_true (a b : Nat) (ha : ¬ a = 0) :
    flRound true a b = ⟨-(flRoundPos a b).num, (flRoundPos a b).den⟩ := by
  rw [flRound, if_neg ha]
  rfl

/-- Rounding zero gives zero over one. -/
theorem flRound_zero (sgn : Bool) (b : Nat) : flRound sgn 0 b = ⟨0, 1⟩ := by
  rw [flRound, if_pos rfl]

/-- Decomposition of the positive rounding core: the scaled fraction
it rounds, the value of the result, and the shape of its numerator and
denominator. -/
theorem flRoundPos_val (a b : Nat) (ha : 1 ≤ a) (hb : 1 ≤ b) :
    ∃ N D : Nat, 1 ≤ D ∧
      (N : ℚ) / (D : ℚ) = ((a : ℚ) / (b : ℚ)) * (2:ℚ) ^ (52 - fracExp a b) ∧
      (flRoundPos a b).toQ
        = ((roundHalfEven N D : ℕ) : ℚ) * (2:ℚ) ^ (fracExp a b - 52) ∧
      (flRoundPos a b).num.natAbs
        = roundHalfEven N D * 2 ^ (fracExp a b - 52).toNat ∧
      ((flRoundPos a b).den = 1 ∨
        (flRoundPos a b).den = 2 ^ (52 - fracExp a b).toNat) := by
  have hbq : (0:ℚ) < (b:ℚ) := by exact_mod_cast hb
  unfold flRoundPos
  set e := fracExp a b with he
  by_cases hse : (0:ℤ) ≤ 52 - e
  · rw [if_pos hse]
    by_cases hoe : (0:ℤ) ≤ e - 52
    · have he52 : e = 52 := by omega
      rw [if_pos hoe]
      refine ⟨a * 2 ^ (52 - e).toNat, b, hb, ?_, ?_, ?_, Or.inl rfl⟩
      · push_cast
        rw [two_pow_toNat hse]
        field_simp
      · simp only [PyFloat.toQ, he52]
        norm_num
      · simp only [Int.natAbs_mul, Int.natAbs_ofNat]
        congr 1
        simp [Int.natAbs_pow]
    · rw [if_neg hoe]
      refine ⟨a * 2 ^ (52 - e).toNat, b, hb, ?_, ?_, ?_, Or.inr rfl⟩
      · push_cast
        rw [two_pow_toNat hse]
        field_simp
      · simp only [PyFloat.toQ]
        push_cast
        rw [two_pow_toNat hse, div_eq_mul_inv, ← zpow_neg,
          show -((52:ℤ) - e) = e - 52 by ring]
      · have h0 : (e - 52).toNat = 0 := by omega
        rw [h0]
        simp
  · have hoe : (0:ℤ) ≤ e - 52 := by omega
    rw [if_neg hse]
    refine ⟨a, b * 2 ^ (e - 52).toNat,
      le_trans hb (Nat.le_mul_of_pos_right _
        (pow_pos (by norm_num : (0:ℕ) < 2) _)), ?_, ?_, ?_, Or.inl rfl⟩
    · push_cast
      rw [two_pow_toNat hoe, show (52:ℤ) - e = -(e - 52) by ring, zpow_neg,
        div_mul_eq_div_div, div_eq_mul_inv ((a:ℚ) / (b:ℚ))]
    · simp only [PyFloat.toQ]
      push_cast
      rw [two_pow_toNat hoe]
      norm_num
    · simp only [Int.natAbs_mul, Int.natAbs_ofNat]
      congr 1
      simp [Int.natAbs_pow]

/-- The positive rounding core differs from its input by at most one
part in 2 ^ 53. -/
theorem flRoundPos_err (a b : Nat) (ha : 1 ≤ a) (hb : 1 ≤ b)
    (ha4 : a < 2 ^ 4096) (hb4 : b < 2 ^ 4096) :
    |(flRoundPos a b).toQ - (a:ℚ)/(b:ℚ)| ≤ ((a:ℚ)/(b:ℚ)) / 2 ^ 53 := by
  obtain ⟨N, D, hD, hval, htoQ, -, -⟩ := flRoundPos_val a b ha hb
  obtain ⟨hbr1, hbr2⟩ := fracExp_bracket a b ha hb ha4 hb4
  set e := fracExp a b
  set v := (a:ℚ)/(b:ℚ) with hv
  have herr := roundHalfEven_err N D hD
  have hvrel : v = ((N:ℚ)/(D:ℚ)) * (2:ℚ) ^ (e - 52) := by
    rw [hval, mul_assoc, ← zpow_add₀ (by norm_num : (2:ℚ) ≠ 0)]
    norm_num
  have hzpos : (0:ℚ) < (2:ℚ) ^ (e - 52) := by positivity
  rw [htoQ]
  conv_lhs => rw [hvrel]
  rw [← sub_mul, abs_mul, abs_of_pos hzpos]
  calc |((roundHalfEven N D : ℕ):ℚ) - (N:ℚ)/(D:ℚ)| * (2:ℚ)^(e-52)
      ≤ (1/2) * (2:ℚ)^(e-52) :=
        mul_le_mul_of_nonneg_right herr (le_of_lt hzpos)
    _ = (2:ℚ)^e * (2:ℚ)^(-53 : ℤ) := by
        rw [show (1/2 : ℚ) = (2:ℚ)^(-1 : ℤ) by norm_num]
        rw [← zpow_add₀ (by norm_num : (2:ℚ) ≠ 0),
          ← zpow_add₀ (by norm_num : (2:ℚ) ≠ 0)]
        congr 1
        ring
    _ ≤ v * (2:ℚ)^(-53 : ℤ) :=
        mul_le_mul_of_nonneg_right hbr1 (by positivity)
    _ = v / 2 ^ 53 := by
        rw [zpow_neg, div_eq_mul_inv]
        norm_num

/-- Rounding a fraction whose value is an integer j returns j. -/
theorem roundHalfEven_of_intval (N D j : Nat) (hD : 1 ≤ D)
    (h : (N:ℚ)/(D:ℚ) = (j : ℕ)) : roundHalfEven N D = j := by
  have hN : N = j * D := by
    have hq : (N:ℚ) = (j:ℚ) * (D:ℚ) := by
      rw [← h]
      field_simp
    exact_mod_cast hq
  subst hN
  rw [roundHalfEven_exact _ _ hD (dvd_mul_left D j)]
  rw [Nat.mul_div_assoc j (dvd_refl D), Nat.div_self (by omega), Nat.mul_one]

/-- The positive rounding core is exact on integer values up to
2 ^ 53. -/
theorem flRoundPos_exact (a b : Nat) (ha : 1 ≤ a) (hb : 1 ≤ b)
    (ha4 : a < 2 ^ 4096) (hb4 : b < 2 ^ 4096) (k : Nat)
    (hvk : (a:ℚ)/(b:ℚ) = (k : ℕ)) (hsmall : k ≤ 2 ^ 53) :
    (flRoundPos a b).toQ = (k : ℕ) := by
  obtain ⟨N, D, hD, hval, htoQ, -, -⟩ := flRoundPos_val a b ha hb
  obtain ⟨hbr1, hbr2⟩ := fracExp_bracket a b ha hb ha4 hb4
  rw [hvk] at hbr1 hbr2 hval
  set e := fracExp a b
  have hk1 : 1 ≤ k := by
    by_contra hc
    push_neg at hc
    have hk0 : k = 0 := by omega
    rw [hk0] at hbr1
    simp at hbr1
    exact absurd hbr1 (not_le.mpr (by positivity))
  have he0 : 0 ≤ e := by
    by_contra hc
    push_neg at hc
    have hle : (2:ℚ) ^ (e + 1) ≤ (2:ℚ) ^ (0:ℤ) := by
      apply zpow_le_zpow_right₀ (by norm_num : (1:ℚ) ≤ 2)
      omega
    rw [zpow_zero] at hle
    have hk1q : (1:ℚ) ≤ (k:ℚ) := by exact_mod_cast hk1
    linarith
  have he53 : e ≤ 53 := by
    have hq : (2:ℚ) ^ e ≤ (2:ℚ) ^ ((53:ℕ):ℤ) := by
      apply le_trans hbr1
      rw [zpow_natCast]
      exact_mod_cast hsmall
    exact (zpow_le_zpow_iff_right₀ (by norm_num : (1:ℚ) < 2)).mp hq
  by_cases he52 : e ≤ 52
  · have hj : (N:ℚ)/(D:ℚ) = ((k * 2 ^ (52 - e).toNat : ℕ) : ℚ) := by
      rw [hval]
      push_cast
      rw [two_pow_toNat (by omega : (0:ℤ) ≤ 52 - e)]
    rw [htoQ, roundHalfEven_of_intval N D _ hD hj]
    push_cast
    rw [two_pow_toNat (by omega : (0:ℤ) ≤ 52 - e)]
    rw [mul_assoc, ← zpow_add₀ (by norm_num : (2:ℚ) ≠ 0)]
    norm_num
  · have he : e = 53 := by omega
    have hk2 : (2:ℚ) ^ ((53:ℕ):ℤ) ≤ (k:ℚ) := by
      rw [show ((53:ℕ):ℤ) = e by omega]
      exact hbr1
    have hkmax : 2 ^ 53 ≤ k := by
      rw [zpow_natCast] at hk2
      exact_mod_cast hk2
    have hkeq : k = 2 ^ 53 := by omega
    have hj : (N:ℚ)/(D:ℚ) = ((2 ^ 52 : ℕ) : ℚ) := by
      rw [hval, hkeq, he]
      push_cast
      rw [zpow_neg, zpow_one]
      norm_num
    rw [htoQ, roundHalfEven_of_intval N D _ hD hj, hkeq, he]
    push_cast
    norm_num

/-- Size of the positive rounding core on values between 1 and
2 ^ 53: numerator at most 2 ^ 54, denominator at most 2 ^ 52. -/
theorem flRoundPos_bounds (a b : Nat) (ha : 1 ≤ a) (hb : 1 ≤ b)
    (ha4 : a < 2 ^ 4096) (hb4 : b < 2 ^ 4096)
    (hv1 : (1:ℚ) ≤ (a:ℚ)/(b:ℚ)) (hv2 : (a:ℚ)/(b:ℚ) ≤ 2 ^ 53) :
    (flRoundPos a b).num.natAbs ≤ 2 ^ 54 ∧
      (flRoundPos a b).den ≤ 2 ^ 52 := by
  obtain ⟨N, D, hD, hval, -, hnum, hden⟩ := flRoundPos_val a b ha hb
  obtain ⟨hbr1, hbr2⟩ := fracExp_bracket a b ha hb ha4 hb4
  set e := fracExp a b
  have he0 : 0 ≤ e := by
    by_contra hc
    push_neg at hc
    have hle : (2:ℚ) ^ (e + 1) ≤ (2:ℚ) ^ (0:ℤ) := by
      apply zpow_le_zpow_right₀ (by norm_num : (1:ℚ) ≤ 2)
      omega
    rw [zpow_zero] at hle
    linarith
  have he53 : e ≤ 53 := by
    have hq : (2:ℚ) ^ e ≤ (2:ℚ) ^ ((53:ℕ):ℤ) := by
      apply le_trans hbr1
      rw [zpow_natCast]
      exact_mod_cast hv2
    exact (zpow_le_zpow_iff_right₀ (by norm_num : (1:ℚ) < 2)).mp hq
  have hx53 : (N:ℚ)/(D:ℚ) < (2:ℚ) ^ ((53:ℕ):ℤ) := by
    rw [hval]
    calc ((a:ℚ)/(b:ℚ)) * (2:ℚ) ^ (52 - e)
        < (2:ℚ) ^ (e + 1) * (2:ℚ) ^ (52 - e) :=
          mul_lt_mul_of_pos_right hbr2 (by positivity)
      _ = (2:ℚ) ^ ((53:ℕ):ℤ) := by
          rw [← zpow_add₀ (by norm_num : (2:ℚ) ≠ 0)]
          congr 1
          push_cast
          ring
  have hND : N / D < 2 ^ 53 := by
    have hc : ((N / D : ℕ) : ℚ) < ((2 ^ 53 : ℕ) : ℚ) := by
      apply lt_of_le_of_lt Nat.cast_div_le
      rw [zpow_natCast] at hx53
      push_cast
      exact_mod_cast hx53
    exact_mod_cast hc
  have hm : roundHalfEven N D ≤ 2 ^ 53 :=
    le_trans (roundHalfEven_le N D) (by omega)
  constructor
  · rw [hnum]
    by_cases hcase : e ≤ 52
    · have h0 : (e - 52).toNat = 0 := by omega
      rw [h0, pow_zero, Nat.mul_one]
      calc roundHalfEven N D ≤ 2 ^ 53 := hm
        _ ≤ 2 ^ 54 := by norm_num
    · have h1 : (e - 52).toNat = 1 := by omega
      rw [h1, pow_one]
      calc roundHalfEven N D * 2 ≤ 2 ^ 53 * 2 := Nat.mul_le_mul_right _ hm
        _ = 2 ^ 54 := by rw [← pow_succ]
  · rcases hden with h | h
    · rw [h]
      exact Nat.one_le_two_pow
    · rw [h]
      apply Nat.pow_le_pow_right (by norm_num)
      omega

/-- Floor division commutes with toNat on nonnegative operands. -/
theorem toNat_ediv_nonneg {a b : Int} (ha : 0 ≤ a) (hb : 0 < b) :
    (a / b).toNat = a.toNat / b.toNat := by
  lift a to ℕ using ha
  lift b to ℕ using hb.le
  rw [← Int.natCast_div, Int.toNat_natCast, Int.toNat_natCast, Int.toNat_natCast]

/-- The denominator produced by the positive rounding core is
positive. -/
theorem flRoundPos_den_pos (a b : Nat) : 1 ≤ (flRoundPos a b).den := by
  unfold flRoundPos
  split_ifs <;> first | exact le_refl 1 | exact Nat.one_le_two_pow

/-- An integer fraction with positive denominator equal to an integer
value in the rationals is that multiple of the denominator. -/
theorem int_of_div_eq (n : Int) (d : Nat) (k : Int) (hd : 1 ≤ d)
    (h : (n:ℚ)/(d:ℚ) = (k:ℚ)) : n = k * d := by
  have hdq : ((d:ℕ):ℚ) ≠ 0 := by
    have : (0:ℚ) < (d:ℚ) := by exact_mod_cast hd
    exact ne_of_gt this
  rw [div_eq_iff hdq] at h
  exact_mod_cast h

/-- A modelled float holding an integer value has numerator equal to
that integer times its denominator. -/
theorem pyfloat_int_num (x : PyFloat) (k : Int) (hd : 1 ≤ x.den)
    (h : x.toQ = (k:ℚ)) : x.num = k * x.den := by
  apply int_of_div_eq x.num x.den k hd
  simpa [PyFloat.toQ] using h

/-- Rounding an exact fraction whose value is an integer of magnitude
at most 2 ^ 53 is exact, with the numerator and denominator of the
result in the normal size range. -/
theorem flRoundFrac_int (n : Int) (d : Nat) (k : Int) (hd : 1 ≤ d)
    (hn : n = k * d) (hk : k.natAbs ≤ 2 ^ 53)
    (hn4 : n.natAbs < 2 ^ 4096) (hd4 : d < 2 ^ 4096) :
    (flRoundFrac n d).toQ = (k : ℚ) ∧ 1 ≤ (flRoundFrac n d).den ∧
      (flRoundFrac n d).num.natAbs ≤ 2 ^ 54 ∧
      (flRoundFrac n d).den ≤ 2 ^ 52 := by
  have hdz : (0:ℤ) < (d:ℤ) := by exact_mod_cast hd
  rcases lt_trichotomy k 0 with hneg | h0 | hpos
  · have hnneg : n < 0 := by
      rw [hn]
      exact mul_neg_of_neg_of_pos hneg hdz
    have hdec : decide (n < 0) = true := decide_eq_true hnneg
    have hna : ¬ n.natAbs = 0 := by omega
    have ha1 : 1 ≤ n.natAbs := by omega
    have habs : n.natAbs = k.natAbs * d := by
      rw [hn, Int.natAbs_mul, Int.natAbs_ofNat]
    have hval : ((n.natAbs : ℕ):ℚ)/(d:ℚ) = ((k.natAbs : ℕ) : ℚ) := by
      rw [habs]
      push_cast
      field_simp
    have hk1 : 1 ≤ k.natAbs := by omega
    have hex := flRoundPos_exact n.natAbs d ha1 hd hn4 hd4 k.natAbs hval hk
    have hv1 : (1:ℚ) ≤ ((n.natAbs : ℕ):ℚ)/(d:ℚ) := by
      rw [hval]
      exact_mod_cast hk1
    have hv2 : ((n.natAbs : ℕ):ℚ)/(d:ℚ) ≤ 2 ^ 53 := by
      rw [hval]
      exact_mod_cast hk
    obtain ⟨hbn, hbd⟩ := flRoundPos_bounds n.natAbs d ha1 hd hn4 hd4 hv1 hv2
    have hkq : ((k.natAbs : ℕ):ℚ) = -(k:ℚ) := by
      rw [Int.cast_natAbs, abs_of_neg hneg]
      push_cast
      ring
    unfold flRoundFrac
    rw [hdec, flRound_true _ _ hna]
    refine ⟨?_, flRoundPos_den_pos _ _, ?_, hbd⟩
    · simp only [PyFloat.toQ] at hex ⊢
      push_cast
      rw [neg_div, hex, hkq, neg_neg]
    · simpa [Int.natAbs_neg] using hbn
  · subst h0
    have hn0 : n = 0 := by
      rw [hn]
      ring
    subst hn0
    unfold flRoundFrac
    rw [show (0:ℤ).natAbs = 0 from rfl, flRound_zero]
    refine ⟨?_, le_refl 1, by norm_num, by norm_num⟩
    simp [PyFloat.toQ]
  · have hnpos : 0 < n := by
      rw [hn]
      exact mul_pos hpos hdz
    have hdec : decide (n < 0) = false := decide_eq_false (not_lt.mpr hnpos.le)
    have hna : ¬ n.natAbs = 0 := by omega
    have ha1 : 1 ≤ n.natAbs := by omega
    have habs : n.natAbs = k.natAbs * d := by
      rw [hn, Int.natAbs_mul, Int.natAbs_ofNat]
    have hval : ((n.natAbs : ℕ):ℚ)/(d:ℚ) = ((k.natAbs : ℕ) : ℚ) := by
      rw [habs]
      push_cast
      field_simp
    have hk1 : 1 ≤ k.natAbs := by omega
    have hex := flRoundPos_exact n.natAbs d ha1 hd hn4 hd4 k.natAbs hval hk
    have hv1 : (1:ℚ) ≤ ((n.natAbs : ℕ):ℚ)/(d:ℚ) := by
      rw [hval]
      exact_mod_cast hk1
    have hv2 : ((n.natAbs : ℕ):ℚ)/(d:ℚ) ≤ 2 ^ 53 := by
      rw [hval]
      exact_mod_cast hk
    obtain ⟨hbn, hbd⟩ := flRoundPos_bounds n.natAbs d ha1 hd hn4 hd4 hv1 hv2
    have hkq : ((k.natAbs : ℕ):ℚ) = (k:ℚ) := by
      rw [Int.cast_natAbs, abs_of_pos]
      exact_mod_cast hpos
    unfold flRoundFrac
    rw [hdec, flRound_false _ _ hna]
    exact ⟨by rw [hex, hkq], flRoundPos_den_pos _ _, hbn, hbd⟩

/-- Rounding an exact positive fraction errs by at most one part in
2 ^ 53 of its value, and yields a positive denominator. -/
theorem flRoundFrac_errPos (n : Int) (d : Nat) (hd : 1 ≤ d) (hn : 0 < n)
    (hn4 : n.natAbs < 2 ^ 4096) (hd4 : d < 2 ^ 4096) :
    |(flRoundFrac n d).toQ - (n:ℚ)/(d:ℚ)| ≤ ((n:ℚ)/(d:ℚ)) / 2 ^ 53 ∧
      1 ≤ (flRoundFrac n d).den := by
  have hdec : decide (n < 0) = false := decide_eq_false (not_lt.mpr hn.le)
  have hna : ¬ n.natAbs = 0 := by omega
  have hcast : ((n.natAbs : ℕ):ℚ) = (n:ℚ) := by
    rw [Int.cast_natAbs, abs_of_pos]
    exact_mod_cast hn
  unfold flRoundFrac
  rw [hdec, flRound_false _ _ hna]
  constructor
  · have herr := flRoundPos_err n.natAbs d (by omega) hd hn4 hd4
    rwa [hcast] at herr
  · exact flRoundPos_den_pos _ _

/-- The finiteness test reads the value of the float: it holds exactly
when the magnitude of the value is below 2 ^ k. -/
theorem fAbsLt_iff (x : PyFloat) (k : Nat) (hd : 1 ≤ x.den) :
    fAbsLt x k = true ↔ |x.toQ| < (2:ℚ) ^ k := by
  have hdq : (0:ℚ) < ((x.den : ℕ):ℚ) := by exact_mod_cast hd
  have habs : |(x.num:ℚ)| = ((x.num.natAbs : ℕ):ℚ) := by
    rw [Int.cast_natAbs, Int.cast_abs]
  rw [fAbsLt, decide_eq_true_eq]
  simp only [PyFloat.toQ]
  rw [abs_div, abs_of_pos hdq, div_lt_iff hdq, habs]
  constructor <;> intro h <;> exact_mod_cast h

/-- The float comparison reads the values: it holds exactly when the
value of the first operand is at most that of the second. -/
theorem fle_iff (x y : PyFloat) (hx : 1 ≤ x.den) (hy : 1 ≤ y.den) :
    fle x y = true ↔ x.toQ ≤ y.toQ := by
  have hxq : (0:ℚ) < ((x.den : ℕ):ℚ) := by exact_mod_cast hx
  have hyq : (0:ℚ) < ((y.den : ℕ):ℚ) := by exact_mod_cast hy
  rw [fle, decide_eq_true_eq]
  simp only [PyFloat.toQ]
  rw [div_le_div_iff hxq hyq]
  constructor <;> intro h <;> exact_mod_cast h

/-- math.floor on a modelled float is the floor of its rational
value. -/
theorem ffloor_eq (x : PyFloat) (hd : 1 ≤ x.den) : ffloor x = ⌊x.toQ⌋ := by
  simp only [ffloor, PyFloat.toQ]
  rw [Rat.floor_intCast_div_natCast]
  exact Int.fdiv_eq_ediv _ (by exact_mod_cast Nat.zero_le x.den)

/-- Core of the arithmetic max_n: flooring the correctly rounded float
quotient of two floats that hold the exact integer values Dv and S
recovers the integer quotient Dv / S whenever 1 <= Dv < 2 ^ 53 and
1 <= S, because the rounding error of the quotient is below half an
integer gap.  The quotient is finite and has positive denominator. -/
theorem ffloor_fdiv (x y : PyFloat) (Dv S : Int)
    (hx : x.toQ = (Dv:ℚ)) (hy : y.toQ = (S:ℚ))
    (hxden : 1 ≤ x.den) (hyden : 1 ≤ y.den)
    (hxnum : x.num.natAbs ≤ 2 ^ 54) (hxd2 : x.den ≤ 2 ^ 52)
    (hynum : y.num.natAbs ≤ 2 ^ 54) (hyd2 : y.den ≤ 2 ^ 52)
    (hD1 : 1 ≤ Dv) (hD53 : Dv < 2 ^ 53) (hS1 : 1 ≤ S) :
    ffloor (fdivF x y) = Dv / S ∧ 1 ≤ (fdivF x y).den ∧
      fAbsLt (fdivF x y) 1024 = true := by
  have hxi : x.num = Dv * x.den := pyfloat_int_num x Dv hxden hx
  have hyi : y.num = S * y.den := pyfloat_int_num y S hyden hy
  have hydz : (0:ℤ) < (y.den:ℤ) := by exact_mod_cast hyden
  have hxdz : (0:ℤ) < (x.den:ℤ) := by exact_mod_cast hxden
  have hypos : 0 < y.num := by
    rw [hyi]
    exact mul_pos (by omega) hydz
  have hxpos : 0 < x.num := by
    rw [hxi]
    exact mul_pos (by omega) hxdz
  have hnpos : 0 < x.num * (y.den:ℤ) := mul_pos hxpos hydz
  have hyabs : y.num.natAbs = S.toNat * y.den := by
    rw [hyi, Int.natAbs_mul, Int.natAbs_ofNat]
    congr 1
    omega
  have hdd1 : 1 ≤ x.den * y.num.natAbs := by
    have h1 : 1 ≤ y.num.natAbs := by omega
    exact Nat.one_le_iff_ne_zero.mpr (Nat.mul_ne_zero (by omega) (by omega))
  have hSt : ((S.toNat : ℕ):ℚ) = (S:ℚ) := by
    have := Int.toNat_of_nonneg (by omega : (0:ℤ) ≤ S)
    exact_mod_cast this
  have hSq : (0:ℚ) < (S:ℚ) := by exact_mod_cast hS1
  have hvq : ((x.num * (y.den:ℤ) : ℤ):ℚ)/((x.den * y.num.natAbs : ℕ):ℚ)
      = (Dv:ℚ)/(S:ℚ) := by
    rw [hxi, hyabs]
    push_cast
    rw [hSt]
    have hxq : (0:ℚ) < ((x.den : ℕ):ℚ) := by exact_mod_cast hxden
    have hyq : (0:ℚ) < ((y.den : ℕ):ℚ) := by exact_mod_cast hyden
    field_simp
    ring
  have hn4 : (x.num * (y.den:ℤ)).natAbs < 2 ^ 4096 := by
    rw [Int.natAbs_mul, Int.natAbs_ofNat]
    calc x.num.natAbs * y.den ≤ 2 ^ 54 * 2 ^ 52 :=
          Nat.mul_le_mul hxnum hyd2
      _ < 2 ^ 4096 := by norm_num
  have hd4 : x.den * y.num.natAbs < 2 ^ 4096 := by
    calc x.den * y.num.natAbs ≤ 2 ^ 52 * 2 ^ 54 :=
          Nat.mul_le_mul hxd2 hynum
      _ < 2 ^ 4096 := by norm_num
  have hid : S * (Dv / S) + Dv % S = Dv := Int.ediv_add_emod Dv S
  have hr0 : 0 ≤ Dv % S := Int.emod_nonneg Dv (by omega)
  have hrS : Dv % S < S := Int.emod_lt_of_pos Dv (by omega)
  have ht0 : 0 ≤ Dv / S := Int.ediv_nonneg (by omega) (by omega)
  have hStle : S * (Dv / S) ≤ Dv := by linarith
  have htD : Dv / S ≤ Dv :=
    le_trans (le_mul_of_one_le_left ht0 hS1) hStle
  have ht53 : Dv / S < 2 ^ 53 := lt_of_le_of_lt htD hD53
  have hdivshape : fdivF x y
      = flRoundFrac (x.num * (y.den:ℤ)) (x.den * y.num.natAbs) := by
    unfold fdivF
    rw [if_neg (not_lt.mpr hypos.le)]
  rcases eq_or_lt_of_le hr0 with hr | hr1
  · have hDveq : Dv = S * (Dv / S) := by linarith
    have hvt : ((x.num * (y.den:ℤ) : ℤ):ℚ)/((x.den * y.num.natAbs : ℕ):ℚ)
        = ((Dv / S : ℤ):ℚ) := by
      rw [hvq]
      have hq : (Dv:ℚ) = (S:ℚ) * ((Dv / S : ℤ):ℚ) := by exact_mod_cast hDveq
      rw [hq, mul_comm, mul_div_assoc, div_self (ne_of_gt hSq), mul_one]
    have hnk : x.num * (y.den:ℤ)
        = (Dv / S) * ((x.den * y.num.natAbs : ℕ):ℤ) :=
      int_of_div_eq _ _ _ hdd1 hvt
    have hknat : (Dv / S).natAbs ≤ 2 ^ 53 := by omega
    obtain ⟨hqQ, hqden, -, -⟩ :=
      flRoundFrac_int _ _ _ hdd1 hnk hknat hn4 hd4
    rw [hdivshape]
    refine ⟨?_, hqden, ?_⟩
    · rw [ffloor_eq _ hqden, hqQ, Int.floor_intCast]
    · rw [fAbsLt_iff _ _ hqden, hqQ]
      rw [abs_of_nonneg (by exact_mod_cast ht0)]
      calc ((Dv / S : ℤ):ℚ) < ((2:ℚ))^(53:ℕ) := by exact_mod_cast ht53
        _ < (2:ℚ)^(1024:ℕ) := by norm_num
  · obtain ⟨herr, hqden⟩ :=
      flRoundFrac_errPos _ _ hdd1 hnpos hn4 hd4
    rw [hvq] at herr
    rw [hdivshape]
    set w := (flRoundFrac (x.num * (y.den:ℤ)) (x.den * y.num.natAbs)).toQ
      with hw
    obtain ⟨h1, h2⟩ := abs_le.mp herr
    have hvS : (Dv:ℚ)/(S:ℚ)/2^53 < 1/(S:ℚ) := by
      rw [div_div, div_lt_div_iff (by positivity) hSq]
      have hD53q : (Dv:ℚ) < 2 ^ 53 := by exact_mod_cast hD53
      calc (Dv:ℚ) * (S:ℚ) < 2 ^ 53 * (S:ℚ) :=
            mul_lt_mul_of_pos_right hD53q hSq
        _ = 1 * ((S:ℚ) * 2 ^ 53) := by ring
    have hidQ : (S:ℚ) * ((Dv / S : ℤ):ℚ) + ((Dv % S : ℤ):ℚ) = (Dv:ℚ) := by
      exact_mod_cast hid
    have hr1Q : (1:ℚ) ≤ ((Dv % S : ℤ):ℚ) := by exact_mod_cast hr1
    have hrSQ : ((Dv % S : ℤ):ℚ) + 1 ≤ (S:ℚ) := by
      have : Dv % S + 1 ≤ S := by omega
      exact_mod_cast this
    have hlowv : ((Dv / S : ℤ):ℚ) + 1/(S:ℚ) ≤ (Dv:ℚ)/(S:ℚ) := by
      have hkey : (S:ℚ) * ((Dv / S : ℤ):ℚ) + 1 ≤ (Dv:ℚ) := by linarith
      have hsplit : ((Dv / S : ℤ):ℚ) + 1/(S:ℚ)
          = ((S:ℚ) * ((Dv / S : ℤ):ℚ) + 1)/(S:ℚ) := by
        field_simp
        ring
      rw [hsplit]
      exact (div_le_div_right hSq).mpr hkey
    have hupv : (Dv:ℚ)/(S:ℚ) + 1/(S:ℚ) ≤ ((Dv / S : ℤ):ℚ) + 1 := by
      have hkey : (Dv:ℚ) + 1 ≤ (S:ℚ) * ((Dv / S : ℤ):ℚ) + (S:ℚ) := by
        linarith
      have hsplit : (Dv:ℚ)/(S:ℚ) + 1/(S:ℚ) = ((Dv:ℚ) + 1)/(S:ℚ) := by
        field_simp
      have hsplit2 : ((Dv / S : ℤ):ℚ) + 1
          = ((S:ℚ) * ((Dv / S : ℤ):ℚ) + (S:ℚ))/(S:ℚ) := by
        field_simp
        ring
      rw [hsplit, hsplit2]
      exact (div_le_div_right hSq).mpr hkey
    have hlo : ((Dv / S : ℤ):ℚ) ≤ w := by linarith
    have hup : w < ((Dv / S : ℤ):ℚ) + 1 := by linarith
    refine ⟨?_, hqden, ?_⟩
    · rw [ffloor_eq _ hqden, Int.floor_eq_iff]
      constructor
      · exact hlo
      · push_cast
        exact hup
    · rw [fAbsLt_iff _ _ hqden]
      rw [abs_of_nonneg (le_trans (by exact_mod_cast ht0) hlo)]
      have ht53q : ((Dv / S : ℤ):ℚ) < ((2:ℚ))^(53:ℕ) := by exact_mod_cast ht53
      have h10 : ((2:ℚ))^(53:ℕ) + 1 ≤ (2:ℚ)^(1024:ℕ) := by norm_num
      linarith

/-- The loop with the sign flag set produces exactly the negation of
every value the loop without the flag produces, fuel for fuel. -/
theorem intervalLoop_neg (high ss : Int) (st : StepType) :
    ∀ (fuel : Nat) (cur : Int) (vs : List Int),
      intervalLoop high true st ss fuel cur (vs.map (fun v => -v)) =
        Option.map (List.map (fun v => -v))
          (intervalLoop high false st ss fuel cur vs) := by
  intro fuel
  induction fuel with
  | zero =>
    intro cur vs
    by_cases h : cur ≤ high <;> simp [intervalLoop, h]
  | succ fuel ih =>
    intro cur vs
    by_cases h : cur ≤ high
    · rw [intervalLoop, if_pos h, intervalLoop, if_pos h]
      have hcons : signedVal true cur :: (vs.map fun v => -v)
          = (signedVal false cur :: vs).map (fun v => -v) := by
        simp [signedVal]
      rw [hcons, ih]
    · simp [intervalLoop, h]

/-- The GEOMETRIC loop terminates from any positive start when the step
size is at least 2: the current value grows by at least 1 each turn. -/
theorem intervalLoop_geom_isSome (high ss : Int) (is_neg : Bool)
    (hss : 2 ≤ ss) :
    ∀ (fuel : Nat) (cur : Int) (vs : List Int), 1 ≤ cur →
      high - cur < (fuel : Int) →
      (intervalLoop high is_neg StepType.GEOMETRIC ss fuel cur vs).isSome
        = true := by
  intro fuel
  induction fuel with
  | zero =>
    intro cur vs hcur hf
    have hgt : high < cur := by push_cast at hf; omega
    rw [intervalLoop, if_neg (not_le.mpr hgt)]
    rfl
  | succ fuel ih =>
    intro cur vs hcur hf
    by_cases h : cur ≤ high
    · rw [intervalLoop, if_pos h]
      have hs1 : (1:Int) * (ss - 1) ≤ cur * (ss - 1) :=
        mul_le_mul_of_nonneg_right hcur (by omega)
      have hexp : cur * (ss - 1) = cur * ss - cur := by ring
      refine ih _ _ ?_ ?_
      · simp only [stepNext]
        linarith
      · simp only [stepNext]
        push_cast at hf ⊢
        linarith
    · rw [intervalLoop, if_neg h]
      rfl

/-- The sign flip distributes over absolute values. -/
theorem abs_signedVal (b : Bool) (v : Int) : |signedVal b v| = |v| := by
  cases b <;> simp [signedVal]

/-- Elements of the arithmetic closed form list. -/
theorem arith_list_getElem (k : Nat) (f : Nat → Int) (j : Nat) (x : Int)
    (hx : ((List.range k).map f)[j]? = some x) : j < k ∧ x = f j := by
  by_cases hj : j < k
  · refine ⟨hj, ?_⟩
    rw [List.getElem?_map, List.getElem?_range hj] at hx
    simp at hx
    exact hx.symm
  · exfalso
    rw [List.getElem?_map, List.getElem?_eq_none (by simpa using not_lt.mp hj)]
      at hx
    simp at hx

/-- Shared fact: map_to_interval raises AttributeError on every
parameter and every index, because the attribute is_neg it reads is
never assigned by the constructor. -/
theorem mapToInterval_error (p : DiscreteParameter) (n : Nat) :
    p.map_to_interval n = Except.error isNegAttrError := by
  unfold DiscreteParameter.map_to_interval
  have h : getBoolAttr p attrRead = none := by
    unfold getBoolAttr
    rw [if_neg (by decide)]
  rw [h]

/-- Claim C8: for every DiscreteParameter, valid or not, and every
index n, map_to_interval raises an attribute-lookup error and never
returns a value, because it reads the attribute is_neg while the
constructor only assigns is_negative. -/
theorem claim_C8 (p : DiscreteParameter) (n : Nat) :
    p.map_to_interval n = Except.error isNegAttrError :=
  mapToInterval_error p n

/-- Claim C1 (code bug, evaluated at a failing input): the O(1) path
map_to_interval does not agree with the O(n) path interval_list on the
valid ARITHMETIC parameter units at index 0; it raises AttributeError
on the unassigned attribute is_neg while the list holds 32 there. -/
theorem claim_C1 :
    unitsParam.map_to_interval 0 = Except.error isNegAttrError ∧
    Option.bind unitsParam.interval_list (fun l => l[0]?) = some 32 := by
  decide

set_option maxRecDepth 8000 in
/-- Claim C2 (code bug, evaluated at the scenario parameter batch):
interval_list does return the eight powers of two, but max_n raises
NameError on the unbound name lower_bound instead of returning 7, and
map_to_interval 3 raises AttributeError on the unassigned attribute
is_neg instead of returning 8. -/
theorem claim_C2 :
    batchParam.interval_list = some [1, 2, 4, 8, 16, 32, 64, 128] ∧
    batchParam.max_n = Except.error nameErrorLowerBound ∧
    batchParam.map_to_interval 3 = Except.error isNegAttrError := by
  decide

/-- Claim C3 (code bug, evaluated at the scenario parameter units):
interval_list has 16 elements and ends at 512, but map_to_interval 15
raises AttributeError on the unassigned attribute is_neg instead of
returning 512. -/
theorem claim_C3 :
    Option.map List.length unitsParam.interval_list = some 16 ∧
    Option.bind unitsParam.interval_list List.getLast? = some 512 ∧
    unitsParam.map_to_interval 15 = Except.error isNegAttrError := by
  decide

set_option maxRecDepth 8000 in
/-- Claim C4 (code bug, evaluated at a failing input): the parameter
batch satisfies every invariant of debug, yet max_n raises NameError on
the unbound name lower_bound instead of returning the largest valid
index. -/
theorem claim_C4 :
    batchParam.debug = Except.ok () ∧
    batchParam.max_n = Except.error nameErrorLowerBound := by
  decide

/-- Claim C6, counterexample: on the invalid configuration with a
negative lower bound, debug signals the builtin exception class
Warning, not a dedicated ValidationError, so the claim as stated
fails. -/
theorem claim_C6_cex :
    ¬ errKind cfg61.debug = some ExcKind.ValidationError := by
  decide

/-- Claim C6 as amended: debug raises an exception for each of the six
invalid configurations, and in each case the raised exception class is
the builtin Warning, which propagates as an error when raised. -/
theorem claim_C6 :
    errKind cfg61.debug = some ExcKind.Warning ∧
    errKind cfg62.debug = some ExcKind.Warning ∧
    errKind cfg63.debug = some ExcKind.Warning ∧
    errKind cfg64.debug = some ExcKind.Warning ∧
    errKind cfg65.debug = some ExcKind.Warning ∧
    errKind cfg66.debug = some ExcKind.Warning := by
  decide

/-- Claim C10: when the lower bound strictly exceeds the upper bound,
the loop of interval_list is never entered and the empty list is
returned, with no failure. -/
theorem claim_C10 (p : DiscreteParameter) (h : p.high < p.low) :
    p.interval_list = some [] := by
  unfold DiscreteParameter.interval_list
  rw [intervalLoop_exit p.high p.is_negative p.step_type p.step_size _ _ _ h]
  rfl

/-- Witness for claim C10 at the concrete inverted-bounds parameter. -/
theorem claim_C10_witness :
    cfg62.high < cfg62.low ∧ cfg62.interval_list = some [] :=
  ⟨by decide, claim_C10 cfg62 (by decide)⟩

/-- Claim C9: for every parameter satisfying the invariants of debug,
the while loop of interval_list terminates: it needs at most the
default fuel, so the run returns a value. -/
theorem claim_C9 (p : DiscreteParameter) (hd : p.debug = Except.ok ()) :
    p.interval_list.isSome = true := by
  obtain ⟨hl0, hlh, hss, hgeo⟩ := debug_ok_bounds p hd
  cases ht : p.step_type with
  | ARITHMETIC =>
    rw [interval_list_arith p ht hss]
    rfl
  | GEOMETRIC =>
    obtain ⟨hss2, hl1⟩ := hgeo ht
    unfold DiscreteParameter.interval_list
    rw [ht]
    exact intervalLoop_geom_isSome p.high p.step_size p.is_negative hss2 _
      p.low [] hl1 (defaultFuel_bound p.low p.high)

/-- Witness for claim C9 at the geometric scenario parameter batch. -/
theorem claim_C9_witness :
    batchParam.debug = Except.ok () ∧ batchParam.interval_list.isSome = true :=
  ⟨by decide, claim_C9 batchParam (by decide)⟩

/-- Claim C7: constructing a parameter with the sign flag set yields,
for interval_list, max_n and map_to_interval, the results of the
construction without the flag with the sign of every produced value
flipped: list elements are negated elementwise, max_n is identical, and
the mapped values are negated (here both map_to_interval runs raise the
same exception, which the sign flip leaves unchanged). -/
theorem claim_C7 (p : DiscreteParameter) (hd : p.debug = Except.ok ()) :
    (setNeg p true).interval_list =
      Option.map (List.map (fun v => -v)) ((setNeg p false).interval_list) ∧
    (setNeg p true).max_n = (setNeg p false).max_n ∧
    ∀ n : Nat, (setNeg p true).map_to_interval n =
      Except.map (fun v : Int => -v) ((setNeg p false).map_to_interval n) := by
  refine ⟨?_, rfl, fun n => ?_⟩
  · have key := intervalLoop_neg p.high p.step_size p.step_type
      (defaultFuel p.low p.high) p.low []
    simp only [DiscreteParameter.interval_list, setNeg]
    simpa using key
  · rw [mapToInterval_error, mapToInterval_error]
    rfl

/-- Witness for claim C7 at the arithmetic scenario parameter units. -/
theorem claim_C7_witness :
    unitsParam.debug = Except.ok () ∧
    ((setNeg unitsParam true).interval_list =
      Option.map (List.map (fun v => -v))
        ((setNeg unitsParam false).interval_list) ∧
    (setNeg unitsParam true).max_n = (setNeg unitsParam false).max_n ∧
    ∀ n : Nat, (setNeg unitsParam true).map_to_interval n =
      Except.map (fun v : Int => -v)
        ((setNeg unitsParam false).map_to_interval n)) :=
  ⟨by decide, claim_C7 unitsParam (by decide)⟩

/-- Magnitude bound transfer into natAbs for nonnegative integers. -/
theorem natAbs_le_two53 {a : ℤ} (h0 : 0 ≤ a) (h : a ≤ 2 ^ 53) :
    a.natAbs ≤ 2 ^ 53 := by omega

/-- Magnitude bound transfer into natAbs for integers bounded on both
sides. -/
theorem natAbs_le_two53_of_bounds {a : ℤ} (hlo : -(2 ^ 53) ≤ a)
    (hhi : a ≤ 2 ^ 53) : a.natAbs ≤ 2 ^ 53 := by omega

set_option maxRecDepth 8000 in
/-- Closed form of max_n for an ARITHMETIC parameter whose bounds and
step size all lie below 2 ^ 53: every cast is exact, the float
quotient floors to the exact integer quotient because its rounding
error is below one part in step_size, the round-off correction
comparison is exact, and the correction never fires, so max_n returns
floor((high - low) / step_size). -/
theorem max_n_arith_small (p : DiscreteParameter)
    (ht : p.step_type = StepType.ARITHMETIC)
    (hl0 : 0 ≤ p.low) (hlh : p.low < p.high) (hss : 1 ≤ p.step_size)
    (hh53 : p.high < 2 ^ 53) (hs53 : p.step_size < 2 ^ 53) :
    p.max_n = Except.ok ((p.high - p.low) / p.step_size) := by
  set t := (p.high - p.low) / p.step_size with htdef
  have h2Q : ((2:ℚ)) ^ (53:ℕ) < (2:ℚ) ^ (1024:ℕ) := by norm_num
  obtain ⟨hLQ0, hLden0, hLnum0, hLd20⟩ := flRoundFrac_int p.low 1 p.low
    (le_refl 1) (by push_cast; ring) (by omega) (by omega) (by norm_num)
  obtain ⟨hHQ0, hHden0, hHnum0, hHd20⟩ := flRoundFrac_int p.high 1 p.high
    (le_refl 1) (by push_cast; ring) (by omega) (by omega) (by norm_num)
  obtain ⟨hSQ0, hSden0, hSnum0, hSd20⟩ := flRoundFrac_int p.step_size 1
    p.step_size (le_refl 1) (by push_cast; ring) (by omega) (by omega)
    (by norm_num)
  have hLQ : (pyFloat p.low).toQ = ((p.low : ℤ):ℚ) := hLQ0
  have hLden : 1 ≤ (pyFloat p.low).den := hLden0
  have hLnum : (pyFloat p.low).num.natAbs ≤ 2 ^ 54 := hLnum0
  have hLd2 : (pyFloat p.low).den ≤ 2 ^ 52 := hLd20
  have hHQ : (pyFloat p.high).toQ = ((p.high : ℤ):ℚ) := hHQ0
  have hHden : 1 ≤ (pyFloat p.high).den := hHden0
  have hHnum : (pyFloat p.high).num.natAbs ≤ 2 ^ 54 := hHnum0
  have hHd2 : (pyFloat p.high).den ≤ 2 ^ 52 := hHd20
  have hSQ : (pyFloat p.step_size).toQ = ((p.step_size : ℤ):ℚ) := hSQ0
  have hSden : 1 ≤ (pyFloat p.step_size).den := hSden0
  have hSnum : (pyFloat p.step_size).num.natAbs ≤ 2 ^ 54 := hSnum0
  have hSd2 : (pyFloat p.step_size).den ≤ 2 ^ 52 := hSd20
  have habsL : fAbsLt (pyFloat p.low) 1024 = true := by
    rw [fAbsLt_iff _ _ hLden, hLQ, abs_of_nonneg (by exact_mod_cast hl0)]
    calc ((p.low : ℤ):ℚ) < (2:ℚ) ^ (53:ℕ) := by
          exact_mod_cast (show p.low < 2 ^ 53 by omega)
      _ < (2:ℚ) ^ (1024:ℕ) := h2Q
  have habsH : fAbsLt (pyFloat p.high) 1024 = true := by
    rw [fAbsLt_iff _ _ hHden, hHQ,
      abs_of_nonneg (by exact_mod_cast (show (0:ℤ) ≤ p.high by omega))]
    calc ((p.high : ℤ):ℚ) < (2:ℚ) ^ (53:ℕ) := by exact_mod_cast hh53
      _ < (2:ℚ) ^ (1024:ℕ) := h2Q
  have habsS : fAbsLt (pyFloat p.step_size) 1024 = true := by
    rw [fAbsLt_iff _ _ hSden, hSQ,
      abs_of_nonneg (by exact_mod_cast (show (0:ℤ) ≤ p.step_size by omega))]
    calc ((p.step_size : ℤ):ℚ) < (2:ℚ) ^ (53:ℕ) := by exact_mod_cast hs53
      _ < (2:ℚ) ^ (1024:ℕ) := h2Q
  have hLi : (pyFloat p.low).num = p.low * ((pyFloat p.low).den : ℤ) :=
    pyfloat_int_num _ _ hLden hLQ
  have hHi : (pyFloat p.high).num = p.high * ((pyFloat p.high).den : ℤ) :=
    pyfloat_int_num _ _ hHden hHQ
  have hSi : (pyFloat p.step_size).num
      = p.step_size * ((pyFloat p.step_size).den : ℤ) :=
    pyfloat_int_num _ _ hSden hSQ
  have hSdz : (0:ℤ) < ((pyFloat p.step_size).den : ℤ) := by
    exact_mod_cast hSden
  have hnum0 : ¬ (pyFloat p.step_size).num = 0 := by
    rw [hSi]
    have hpos := mul_pos (show (0:ℤ) < p.step_size by omega) hSdz
    omega
  have hdn : (pyFloat p.high).num * ((pyFloat p.low).den : ℤ)
      - (pyFloat p.low).num * ((pyFloat p.high).den : ℤ)
      = (p.high - p.low)
        * (((pyFloat p.high).den * (pyFloat p.low).den : ℕ) : ℤ) := by
    rw [hHi, hLi]
    push_cast
    ring
  have hdd1 : 1 ≤ (pyFloat p.high).den * (pyFloat p.low).den :=
    Nat.one_le_iff_ne_zero.mpr (Nat.mul_ne_zero (by omega) (by omega))
  have hdk : (p.high - p.low).natAbs ≤ 2 ^ 53 :=
    natAbs_le_two53 (by omega) (by omega)
  have hdn4 : ((pyFloat p.high).num * ((pyFloat p.low).den : ℤ)
      - (pyFloat p.low).num * ((pyFloat p.high).den : ℤ)).natAbs
      < 2 ^ 4096 := by
    rw [hdn, Int.natAbs_mul, Int.natAbs_ofNat]
    calc (p.high - p.low).natAbs
        * ((pyFloat p.high).den * (pyFloat p.low).den)
        ≤ 2 ^ 53 * (2 ^ 52 * 2 ^ 52) :=
          Nat.mul_le_mul hdk (Nat.mul_le_mul hHd2 hLd2)
      _ < 2 ^ 4096 := by norm_num
  have hdd4 : (pyFloat p.high).den * (pyFloat p.low).den < 2 ^ 4096 := by
    calc (pyFloat p.high).den * (pyFloat p.low).den
        ≤ 2 ^ 52 * 2 ^ 52 := Nat.mul_le_mul hHd2 hLd2
      _ < 2 ^ 4096 := by norm_num
  obtain ⟨hDQ0, hDden0, hDnum0, hDd20⟩ :=
    flRoundFrac_int _ _ _ hdd1 hdn hdk hdn4 hdd4
  have hDQ : (fsub (pyFloat p.high) (pyFloat p.low)).toQ
      = ((p.high - p.low : ℤ):ℚ) := hDQ0
  have hDden : 1 ≤ (fsub (pyFloat p.high) (pyFloat p.low)).den := hDden0
  have hDnum : (fsub (pyFloat p.high) (pyFloat p.low)).num.natAbs
      ≤ 2 ^ 54 := hDnum0
  have hDd2 : (fsub (pyFloat p.high) (pyFloat p.low)).den ≤ 2 ^ 52 := hDd20
  have habsD : fAbsLt (fsub (pyFloat p.high) (pyFloat p.low)) 1024
      = true := by
    rw [fAbsLt_iff _ _ hDden, hDQ,
      abs_of_nonneg
        (by exact_mod_cast (show (0:ℤ) ≤ p.high - p.low by omega))]
    calc ((p.high - p.low : ℤ):ℚ) < (2:ℚ) ^ (53:ℕ) := by
          exact_mod_cast (show p.high - p.low < 2 ^ 53 by omega)
      _ < (2:ℚ) ^ (1024:ℕ) := h2Q
  obtain ⟨hfloorq, hQden, habsQ⟩ := ffloor_fdiv
    (fsub (pyFloat p.high) (pyFloat p.low)) (pyFloat p.step_size)
    (p.high - p.low) p.step_size hDQ hSQ hDden hSden hDnum hDd2
    hSnum hSd2 (by omega) (by omega) hss
  have hid : p.step_size * t + (p.high - p.low) % p.step_size
      = p.high - p.low := Int.ediv_add_emod _ _
  have hr0 : 0 ≤ (p.high - p.low) % p.step_size :=
    Int.emod_nonneg _ (by omega)
  have hrS : (p.high - p.low) % p.step_size < p.step_size :=
    Int.emod_lt_of_pos _ (by omega)
  have ht0 : 0 ≤ t := Int.ediv_nonneg (by omega) (by omega)
  have hStle : p.step_size * t ≤ p.high - p.low := by linarith
  have htD : t ≤ p.high - p.low :=
    le_trans (le_mul_of_one_le_left ht0 hss) hStle
  obtain ⟨hNQ0, hNden0, hNnum0, hNd20⟩ := flRoundFrac_int t 1 t
    (le_refl 1) (by push_cast; ring)
    (natAbs_le_two53 ht0 (by omega))
    (by have := natAbs_le_two53 ht0 (by omega); omega) (by norm_num)
  have hNQ : (pyFloat t).toQ = ((t : ℤ):ℚ) := hNQ0
  have hNden : 1 ≤ (pyFloat t).den := hNden0
  have hNnum : (pyFloat t).num.natAbs ≤ 2 ^ 54 := hNnum0
  have hNd2 : (pyFloat t).den ≤ 2 ^ 52 := hNd20
  have hNi : (pyFloat t).num = t * ((pyFloat t).den : ℤ) :=
    pyfloat_int_num _ _ hNden hNQ
  have habsN : fAbsLt (pyFloat t) 1024 = true := by
    rw [fAbsLt_iff _ _ hNden, hNQ, abs_of_nonneg (by exact_mod_cast ht0)]
    calc ((t : ℤ):ℚ) < (2:ℚ) ^ (53:ℕ) := by
          exact_mod_cast (show t < 2 ^ 53 by omega)
      _ < (2:ℚ) ^ (1024:ℕ) := h2Q
  have htSle : t * p.step_size ≤ p.high - p.low := by
    rw [mul_comm]
    exact hStle
  have htS0 : 0 ≤ t * p.step_size := mul_nonneg ht0 (by omega)
  have hmn : (pyFloat t).num * (pyFloat p.step_size).num
      = (t * p.step_size)
        * (((pyFloat t).den * (pyFloat p.step_size).den : ℕ) : ℤ) := by
    rw [hNi, hSi]
    push_cast
    ring
  have hmd1 : 1 ≤ (pyFloat t).den * (pyFloat p.step_size).den :=
    Nat.one_le_iff_ne_zero.mpr (Nat.mul_ne_zero (by omega) (by omega))
  have hmk : (t * p.step_size).natAbs ≤ 2 ^ 53 :=
    natAbs_le_two53 htS0 (by linarith)
  have hmn4 : ((pyFloat t).num * (pyFloat p.step_size).num).natAbs
      < 2 ^ 4096 := by
    rw [Int.natAbs_mul]
    calc (pyFloat t).num.natAbs * (pyFloat p.step_size).num.natAbs
        ≤ 2 ^ 54 * 2 ^ 54 := Nat.mul_le_mul hNnum hSnum
      _ < 2 ^ 4096 := by norm_num
  have hmd4 : (pyFloat t).den * (pyFloat p.step_size).den < 2 ^ 4096 := by
    calc (pyFloat t).den * (pyFloat p.step_size).den
        ≤ 2 ^ 52 * 2 ^ 52 := Nat.mul_le_mul hNd2 hSd2
      _ < 2 ^ 4096 := by norm_num
  obtain ⟨hMQ0, hMden0, hMnum0, hMd20⟩ :=
    flRoundFrac_int _ _ _ hmd1 hmn hmk hmn4 hmd4
  have hMQ : (fmul (pyFloat t) (pyFloat p.step_size)).toQ
      = ((t * p.step_size : ℤ):ℚ) := hMQ0
  have hMden : 1 ≤ (fmul (pyFloat t) (pyFloat p.step_size)).den := hMden0
  have hMnum : (fmul (pyFloat t) (pyFloat p.step_size)).num.natAbs
      ≤ 2 ^ 54 := hMnum0
  have hMd2 : (fmul (pyFloat t) (pyFloat p.step_size)).den ≤ 2 ^ 52 := hMd20
  have hMi : (fmul (pyFloat t) (pyFloat p.step_size)).num
      = (t * p.step_size)
        * ((fmul (pyFloat t) (pyFloat p.step_size)).den : ℤ) :=
    pyfloat_int_num _ _ hMden hMQ
  have han : (fmul (pyFloat t) (pyFloat p.step_size)).num
        * ((pyFloat p.low).den : ℤ)
      + (pyFloat p.low).num
        * ((fmul (pyFloat t) (pyFloat p.step_size)).den : ℤ)
      = (t * p.step_size + p.low)
        * (((fmul (pyFloat t) (pyFloat p.step_size)).den
            * (pyFloat p.low).den : ℕ) : ℤ) := by
    rw [hMi, hLi]
    push_cast
    ring
  have had1 : 1 ≤ (fmul (pyFloat t) (pyFloat p.step_size)).den
      * (pyFloat p.low).den :=
    Nat.one_le_iff_ne_zero.mpr (Nat.mul_ne_zero (by omega) (by omega))
  have hak : (t * p.step_size + p.low).natAbs ≤ 2 ^ 53 :=
    natAbs_le_two53 (add_nonneg htS0 hl0) (by linarith)
  have han4 : ((fmul (pyFloat t) (pyFloat p.step_size)).num
        * ((pyFloat p.low).den : ℤ)
      + (pyFloat p.low).num
        * ((fmul (pyFloat t) (pyFloat p.step_size)).den : ℤ)).natAbs
      < 2 ^ 4096 := by
    rw [han, Int.natAbs_mul, Int.natAbs_ofNat]
    calc (t * p.step_size + p.low).natAbs
        * ((fmul (pyFloat t) (pyFloat p.step_size)).den
            * (pyFloat p.low).den)
        ≤ 2 ^ 53 * (2 ^ 52 * 2 ^ 52) :=
          Nat.mul_le_mul hak (Nat.mul_le_mul hMd2 hLd2)
      _ < 2 ^ 4096 := by norm_num
  have had4 : (fmul (pyFloat t) (pyFloat p.step_size)).den
      * (pyFloat p.low).den < 2 ^ 4096 := by
    calc (fmul (pyFloat t) (pyFloat p.step_size)).den
        * (pyFloat p.low).den
        ≤ 2 ^ 52 * 2 ^ 52 := Nat.mul_le_mul hMd2 hLd2
      _ < 2 ^ 4096 := by norm_num
  obtain ⟨hAQ0, hAden0, -, -⟩ :=
    flRoundFrac_int _ _ _ had1 han hak han4 had4
  have hAQ : (fadd (fmul (pyFloat t) (pyFloat p.step_size))
      (pyFloat p.low)).toQ = ((t * p.step_size + p.low : ℤ):ℚ) := hAQ0
  have hAden : 1 ≤ (fadd (fmul (pyFloat t) (pyFloat p.step_size))
      (pyFloat p.low)).den := hAden0
  have hAi : (fadd (fmul (pyFloat t) (pyFloat p.step_size))
        (pyFloat p.low)).num
      = (t * p.step_size + p.low)
        * ((fadd (fmul (pyFloat t) (pyFloat p.step_size))
            (pyFloat p.low)).den : ℤ) :=
    pyfloat_int_num _ _ hAden hAQ
  have hbn : (pyFloat p.high).num * ((pyFloat p.step_size).den : ℤ)
      - (pyFloat p.step_size).num * ((pyFloat p.high).den : ℤ)
      = (p.high - p.step_size)
        * (((pyFloat p.high).den * (pyFloat p.step_size).den : ℕ) : ℤ) := by
    rw [hHi, hSi]
    push_cast
    ring
  have hbd1 : 1 ≤ (pyFloat p.high).den * (pyFloat p.step_size).den :=
    Nat.one_le_iff_ne_zero.mpr (Nat.mul_ne_zero (by omega) (by omega))
  have hbk : (p.high - p.step_size).natAbs ≤ 2 ^ 53 :=
    natAbs_le_two53_of_bounds (by omega) (by omega)
  have hbn4 : ((pyFloat p.high).num * ((pyFloat p.step_size).den : ℤ)
      - (pyFloat p.step_size).num * ((pyFloat p.high).den : ℤ)).natAbs
      < 2 ^ 4096 := by
    rw [hbn, Int.natAbs_mul, Int.natAbs_ofNat]
    calc (p.high - p.step_size).natAbs
        * ((pyFloat p.high).den * (pyFloat p.step_size).den)
        ≤ 2 ^ 53 * (2 ^ 52 * 2 ^ 52) :=
          Nat.mul_le_mul hbk (Nat.mul_le_mul hHd2 hSd2)
      _ < 2 ^ 4096 := by norm_num
  have hbd4 : (pyFloat p.high).den * (pyFloat p.step_size).den
      < 2 ^ 4096 := by
    calc (pyFloat p.high).den * (pyFloat p.step_size).den
        ≤ 2 ^ 52 * 2 ^ 52 := Nat.mul_le_mul hHd2 hSd2
      _ < 2 ^ 4096 := by norm_num
  obtain ⟨hBQ0, hBden0, -, -⟩ :=
    flRoundFrac_int _ _ _ hbd1 hbn hbk hbn4 hbd4
  have hBQ : (fsub (pyFloat p.high) (pyFloat p.step_size)).toQ
      = ((p.high - p.step_size : ℤ):ℚ) := hBQ0
  have hBden : 1 ≤ (fsub (pyFloat p.high) (pyFloat p.step_size)).den :=
    hBden0
  have hBi : (fsub (pyFloat p.high) (pyFloat p.step_size)).num
      = (p.high - p.step_size)
        * ((fsub (pyFloat p.high) (pyFloat p.step_size)).den : ℤ) :=
    pyfloat_int_num _ _ hBden hBQ
  have hk54 : p.high - p.step_size < t * p.step_size + p.low := by
    have hc : t * p.step_size = p.step_size * t := mul_comm _ _
    linarith
  have hfle : fle
      (fadd (fmul (pyFloat t) (pyFloat p.step_size)) (pyFloat p.low))
      (fsub (pyFloat p.high) (pyFloat p.step_size)) = false := by
    have hAd : (0:ℤ) < ((fadd (fmul (pyFloat t) (pyFloat p.step_size))
        (pyFloat p.low)).den : ℤ) := by exact_mod_cast hAden
    have hBd : (0:ℤ) < ((fsub (pyFloat p.high)
        (pyFloat p.step_size)).den : ℤ) := by exact_mod_cast hBden
    rw [fle, decide_eq_false_iff_not, hAi, hBi]
    intro hcon
    have hprod : (p.high - p.step_size)
        * (((fsub (pyFloat p.high) (pyFloat p.step_size)).den : ℤ)
          * ((fadd (fmul (pyFloat t) (pyFloat p.step_size))
              (pyFloat p.low)).den : ℤ))
        < (t * p.step_size + p.low)
          * (((fsub (pyFloat p.high) (pyFloat p.step_size)).den : ℤ)
            * ((fadd (fmul (pyFloat t) (pyFloat p.step_size))
                (pyFloat p.low)).den : ℤ)) :=
      mul_lt_mul_of_pos_right hk54 (mul_pos hBd hAd)
    have e1 : ((t * p.step_size + p.low)
          * ((fadd (fmul (pyFloat t) (pyFloat p.step_size))
              (pyFloat p.low)).den : ℤ))
        * ((fsub (pyFloat p.high) (pyFloat p.step_size)).den : ℤ)
        = (t * p.step_size + p.low)
          * (((fsub (pyFloat p.high) (pyFloat p.step_size)).den : ℤ)
            * ((fadd (fmul (pyFloat t) (pyFloat p.step_size))
                (pyFloat p.low)).den : ℤ)) := by ring
    have e2 : ((p.high - p.step_size)
          * ((fsub (pyFloat p.high) (pyFloat p.step_size)).den : ℤ))
        * ((fadd (fmul (pyFloat t) (pyFloat p.step_size))
            (pyFloat p.low)).den : ℤ)
        = (p.high - p.step_size)
          * (((fsub (pyFloat p.high) (pyFloat p.step_size)).den : ℤ)
            * ((fadd (fmul (pyFloat t) (pyFloat p.step_size))
                (pyFloat p.low)).den : ℤ)) := by ring
    linarith [hcon, hprod, e1, e2]
  simp only [DiscreteParameter.max_n, habsL, habsH, habsS, ht, hnum0,
    habsD, habsQ, hfloorq, habsN, hfle, eq_self_iff_true, if_true,
    if_false, Bool.false_eq_true]

/-- Claim C5 (amended): for every ARITHMETIC parameter satisfying the
invariants of debug whose upper bound and step size lie below 2 ^ 53
(so every bound is exactly representable in double precision),
interval_list returns a list of exactly max_n + 1 elements whose first
element is the signed lower bound, whose last element has magnitude at
most the upper bound, and whose consecutive elements differ by exactly
the step size in magnitude.  The restriction is necessary: beyond
2 ^ 53 the float casts inside max_n round, see the counterexample. -/
theorem claim_C5 (p : DiscreteParameter) (hd : p.debug = Except.ok ())
    (ht : p.step_type = StepType.ARITHMETIC)
    (hh53 : p.high < 2 ^ 53) (hs53 : p.step_size < 2 ^ 53) :
    ∃ (l : List Int) (m : Int),
      p.interval_list = some l ∧ p.max_n = Except.ok m ∧
      l.length = m.toNat + 1 ∧
      l.head? = some (signedVal p.is_negative p.low) ∧
      (∀ x, l.getLast? = some x → |x| ≤ p.high) ∧
      (∀ (i : Nat) (a b : Int), l[i]? = some a → l[i + 1]? = some b →
        |b| = |a| + p.step_size) := by
  obtain ⟨hl0, hlh, hss, -⟩ := debug_ok_bounds p hd
  have hd0 : (0:Int) ≤ p.high - p.low := by omega
  have hcount : arithCount p.high p.step_size p.low
      = (p.high - p.low).toNat / p.step_size.toNat + 1 := by
    unfold arithCount
    rw [if_pos (by omega : p.low ≤ p.high)]
  refine ⟨_, _, interval_list_arith p ht hss,
    max_n_arith_small p ht hl0 hlh hss hh53 hs53,
    ?_, ?_, ?_, ?_⟩
  · rw [List.length_map, List.length_range, hcount,
      toNat_ediv_nonneg hd0 (show (0:Int) < p.step_size by omega)]
  · rw [List.head?_eq_getElem?, List.getElem?_map,
      List.getElem?_range (by rw [hcount]; exact Nat.succ_pos _)]
    simp
  · intro x hx
    rw [List.getLast?_eq_getElem?, List.length_map, List.length_range,
      hcount, Nat.add_sub_cancel, List.getElem?_map,
      List.getElem?_range (by omega)] at hx
    simp only [Option.map_some'] at hx
    have hxval : x = signedVal p.is_negative
        (p.low + p.step_size *
          (((p.high - p.low).toNat / p.step_size.toNat : ℕ) : ℤ)) :=
      (Option.some.inj hx).symm
    have hq0 : (0:Int) ≤ (((p.high - p.low).toNat / p.step_size.toNat : ℕ) : ℤ) :=
      Int.natCast_nonneg _
    have hnn : (0:Int) ≤ p.low + p.step_size *
        (((p.high - p.low).toNat / p.step_size.toNat : ℕ) : ℤ) :=
      add_nonneg hl0 (mul_nonneg (by omega) hq0)
    rw [hxval, abs_signedVal, abs_of_nonneg hnn]
    have hmul : ((p.high - p.low).toNat / p.step_size.toNat)
        * p.step_size.toNat ≤ (p.high - p.low).toNat :=
      Nat.div_mul_le_self _ _
    have hcast : ((((p.high - p.low).toNat / p.step_size.toNat : ℕ) : ℤ))
        * ((p.step_size.toNat : ℕ) : ℤ) ≤ (((p.high - p.low).toNat : ℕ) : ℤ) := by
      exact_mod_cast hmul
    rw [Int.toNat_of_nonneg hd0,
      Int.toNat_of_nonneg (by omega : (0:Int) ≤ p.step_size)] at hcast
    have hcomm : p.step_size *
        (((p.high - p.low).toNat / p.step_size.toNat : ℕ) : ℤ)
        = (((p.high - p.low).toNat / p.step_size.toNat : ℕ) : ℤ)
          * p.step_size := mul_comm _ _
    linarith
  · intro i a b ha hb
    obtain ⟨hik, hav⟩ := arith_list_getElem _ _ _ _ ha
    obtain ⟨hik1, hbv⟩ := arith_list_getElem _ _ _ _ hb
    have hnn1 : (0:Int) ≤ p.low + p.step_size * (i : Int) :=
      add_nonneg hl0 (mul_nonneg (by omega) (Int.natCast_nonneg i))
    have hnn2 : (0:Int) ≤ p.low + p.step_size * ((i + 1 : ℕ) : Int) :=
      add_nonneg hl0 (mul_nonneg (by omega) (Int.natCast_nonneg _))
    rw [hav, hbv, abs_signedVal, abs_signedVal,
      abs_of_nonneg hnn1, abs_of_nonneg hnn2]
    push_cast
    ring

/-- Witness for claim C5 at the concrete parameter w5. -/
theorem claim_C5_witness :
    w5Param.debug = Except.ok () ∧ w5Param.step_type = StepType.ARITHMETIC ∧
    w5Param.high < 2 ^ 53 ∧ w5Param.step_size < 2 ^ 53 ∧
    ∃ (l : List Int) (m : Int),
      w5Param.interval_list = some l ∧ w5Param.max_n = Except.ok m ∧
      l.length = m.toNat + 1 ∧
      l.head? = some (signedVal w5Param.is_negative w5Param.low) ∧
      (∀ x, l.getLast? = some x → |x| ≤ w5Param.high) ∧
      (∀ (i : Nat) (a b : Int), l[i]? = some a → l[i + 1]? = some b →
        |b| = |a| + w5Param.step_size) :=
  ⟨by decide, rfl, by decide, by decide,
    claim_C5 w5Param (by decide) rfl (by decide) (by decide)⟩

set_option maxRecDepth 8000 in
/-- Counterexample to claim C5 as originally stated: the parameter cex
with bounds 0 and 2 ^ 53 + 1 and ARITHMETIC step 1 satisfies every
invariant of debug, yet its interval_list has 2 ^ 53 + 2 elements
while max_n returns 2 ^ 53 (the cast float(2 ^ 53 + 1) rounds to
2 ^ 53), so the list does not have max_n + 1 elements. -/
theorem claim_C5_cex :
    cexParam.debug = Except.ok () ∧
    cexParam.step_type = StepType.ARITHMETIC ∧
    ¬ ∃ (l : List Int) (m : Int),
        cexParam.interval_list = some l ∧ cexParam.max_n = Except.ok m ∧
        l.length = m.toNat + 1 := by
  refine ⟨by decide, rfl, ?_⟩
  have hmax : cexParam.max_n = Except.ok (2 ^ 53) := by decide
  have hcnt : arithCount cexParam.high cexParam.step_size cexParam.low
      = 2 ^ 53 + 2 := by decide
  rintro ⟨l, m, hl, hm, hlen⟩
  have hl2 := hl.symm.trans (interval_list_arith cexParam rfl (by decide))
  have hm2 := hm.symm.trans hmax
  have hmeq : m = 2 ^ 53 := by
    injection hm2
  rw [Option.some.inj hl2, List.length_map, List.length_range, hcnt,
    hmeq] at hlen
  have htn : ((2:ℤ) ^ 53).toNat = 2 ^ 53 := by decide
  rw [htn] at hlen
  omega

end Deephyper
